import Mathlib

/-!
# Verification of `estree-util-module-to-function`

A shallow embedding of the AST-rewriting pass implemented in
`src/src/estree-util-module-to-function.ts` (the canonical implementation,
mirrored by `src/unnamed/part_007`).  The data model mirrors the ESTree node
shapes the rewriter inspects or constructs; the rewriter itself
(`moduleToFunction`) is translated function by function.  Theorems at the end
settle the specification claims.
-/

namespace EstreeModuleToFunction

/-- The value carried by an ESTree `Literal` node, restricted to the literal
kinds the rewriter inspects or constructs (strings, numbers, booleans, and
`null`). -/
inductive JSValue where
  | str (s : String)
  | num (n : Int)
  | bool (b : Bool)
  | null
deriving DecidableEq, Repr

/-- An ESTree `Identifier | Literal` alternative, which is the type of import
and export specifier names (`specifier.imported`, `specifier.local`,
`specifier.exported`, `node.exported`) and of import attribute keys. -/
inductive IdLit where
  | ident (name : String)
  | lit (value : JSValue)
deriving DecidableEq, Repr

/-- Whether an `Identifier | Literal` node is a `Literal`
(the `x.type === 'Literal'` test of the source). -/
def IdLit.isLit : IdLit → Bool
  | .ident _ => false
  | .lit _ => true

/-- An ESTree `ImportAttribute`: one `key: value` pair of a `with { ... }`
clause.  The value is always a `Literal`. -/
structure ImportAttribute where
  key : IdLit
  value : JSValue
deriving DecidableEq, Repr

/-- An ESTree import specifier (`ImportDefaultSpecifier`,
`ImportNamespaceSpecifier`, or `ImportSpecifier`).  Local names are always
`Identifier` nodes; the imported name of an `ImportSpecifier` may be an
`Identifier` or a string `Literal`. -/
inductive ImpSpec where
  | defaultS (localName : String)
  | namespaceS (localName : String)
  | namedS (imported : IdLit) (localName : String)
deriving DecidableEq, Repr

/-- An ESTree `ExportSpecifier`: `local` and `exported` names, each an
`Identifier` or a string `Literal`. -/
structure ExpSpec where
  localName : IdLit
  exported : IdLit
deriving DecidableEq, Repr

mutual
/-- ESTree `Pattern` nodes, covering the pattern shapes the rewriter inspects
(`Identifier`, `ObjectPattern`, `ArrayPattern`, `RestElement`). -/
inductive Pat where
  | identifier (name : String)
  | objectPat (properties : List ObjPatProp)
  | arrayPat (elements : List (Option Pat))
  | restElem (argument : Pat)

/-- An entry of an `ObjectPattern`: an `AssignmentProperty` (whose key is an
`Identifier` or `Literal` and whose value is a pattern) or a `RestElement`. -/
inductive ObjPatProp where
  | prop (computed shorthand : Bool) (key : IdLit) (value : Pat)
  | restP (argument : Pat)
end

mutual
/-- ESTree `Expression` nodes, covering the expression shapes the rewriter
inspects or constructs. -/
inductive Expr where
  | identifier (name : String)
  | literal (value : JSValue)
  | member (computed optional : Bool) (object : Expr) (property : Expr)
  | call (optional : Bool) (callee : Expr) (args : List Expr)
  | importExpr (source : Expr) (options : Option Expr)
  | metaProperty (meta property : String)
  | objectExpr (properties : List OMember)
  | arrayExpr (elements : List (Option Expr))
  | awaitExpr (argument : Expr)
  | arrow (expression : Bool) (params : List Pat) (body : Expr)

/-- An entry of an `ObjectExpression`: a `Property` (with its `computed`,
`method` and `shorthand` flags; the `kind` is always `'init'` in this
code base and is omitted) or a `SpreadElement`. -/
inductive OMember where
  | prop (computed method shorthand : Bool) (key value : Expr)
  | spread (argument : Expr)
end

/-- An ESTree `VariableDeclarator`: a binding pattern and an optional
initializer. -/
structure VarDtor where
  id : Pat
  init : Option Expr

mutual
/-- ESTree `Statement` (and module declaration) nodes.  Import and re-export
sources are string `Literal` nodes, represented by their `JSValue`. -/
inductive Stmt where
  | exprStmt (expression : Expr)
  | varDecl (kind : String) (declarations : List VarDtor)
  | funcDecl (id : String) (params : List Pat) (body : List Stmt)
  | classDecl (id : String)
  | returnStmt (argument : Option Expr)
  | importDecl (specifiers : List ImpSpec) (source : JSValue)
      (attributes : List ImportAttribute)
  | exportNamed (declaration : Option Decl) (specifiers : List ExpSpec)
      (source : Option JSValue) (attributes : List ImportAttribute)
  | exportDefault (declaration : DefaultDecl)
  | exportAll (exported : Option IdLit) (source : JSValue)
      (attributes : List ImportAttribute)

/-- An ESTree `Declaration` (the `declaration` field of an
`ExportNamedDeclaration`): a variable, function, or class declaration.  In
this position the `id` of a function or class is always present. -/
inductive Decl where
  | varD (kind : String) (declarations : List VarDtor)
  | funcD (id : String) (params : List Pat) (body : List Stmt)
  | classD (id : String)

/-- The `declaration` of an `ExportDefaultDeclaration`: a possibly anonymous
function or class declaration, or an arbitrary expression. -/
inductive DefaultDecl where
  | fnD (id : Option String) (params : List Pat) (body : List Stmt)
  | clsD (id : Option String)
  | exprD (e : Expr)
end

/-- An ESTree `Program`: the top-level ordered statement list of the module. -/
structure Program where
  body : List Stmt

/-- View an `Identifier | Literal` name node as an expression node. -/
def IdLit.toExpr : IdLit → Expr
  | .ident n => .identifier n
  | .lit v => .literal v

/-- Embed a `Declaration` into the statement type (used when
`this.replace(node.declaration)` puts the declaration in the body). -/
def Decl.toStmt : Decl → Stmt
  | .varD kind ds => .varDecl kind ds
  | .funcD id params body => .funcDecl id params body
  | .classD id => .classDecl id

/-- `isShorthand` from the source: whether `a` and `b` are equal identifier
nodes, so that a property `{a: b}` may be rendered in shorthand form. -/
def isShorthand (a b : Expr) : Bool :=
  match a, b with
  | .identifier x, .identifier y => x == y
  | _, _ => false

/-- `createProperty` from the source: build a `Property` for the returned
exports object.  A key that is (or names) `__proto__` is forced into
computed string-literal form, and shorthand is disabled for it. -/
def createProperty (key value : Expr) : OMember :=
  let computed : Bool :=
    match key with
    | .literal v => v == .str "__proto__"
    | .identifier n => n == "__proto__"
    | _ => false
  let key : Expr :=
    match key with
    | .identifier n => if n == "__proto__" then .literal (.str "__proto__") else key
    | _ => key
  .prop computed false (!computed && isShorthand key value) key value

mutual
/-- `findExportDeclarations` from the source: all binding names introduced by
a pattern, in order (identifiers; object-pattern property values and rest
arguments; array-pattern elements and rest arguments). -/
def findExportDeclarations : Pat → List String
  | .identifier name => [name]
  | .objectPat properties => findInObjProps properties
  | .arrayPat elements => findInArrayElems elements
  | .restElem _ => []

/-- The `ObjectPattern` loop of `findExportDeclarations`. -/
def findInObjProps : List ObjPatProp → List String
  | [] => []
  | .restP argument :: rest => findExportDeclarations argument ++ findInObjProps rest
  | .prop _ _ _ value :: rest => findExportDeclarations value ++ findInObjProps rest

/-- The `ArrayPattern` loop of `findExportDeclarations`. -/
def findInArrayElems : List (Option Pat) → List String
  | [] => []
  | none :: rest => findInArrayElems rest
  | some (.restElem argument) :: rest => findExportDeclarations argument ++ findInArrayElems rest
  | some element :: rest => findExportDeclarations element ++ findInArrayElems rest
end

/-- `extractExportNames` from the source: the shorthand export properties for
every binding name introduced by a declaration. -/
def extractExportNames : Decl → List OMember
  | .varD _ declarations =>
      declarations.flatMap fun declarator =>
        (findExportDeclarations declarator.id).map fun name =>
          createProperty (.identifier name) (.identifier name)
  | .funcD id _ _ => [createProperty (.identifier id) (.identifier id)]
  | .classD id => [createProperty (.identifier id) (.identifier id)]

/-- `convertImportAttributes` from the source: represent the import
attributes as the object `{ with: { key: value, ... } }`. -/
def convertImportAttributes (attributes : List ImportAttribute) : Expr :=
  .objectExpr
    [.prop false false false (.identifier "with")
      (.objectExpr (attributes.map fun a =>
        .prop false false false a.key.toExpr (.literal a.value)))]

/-- `esmDeclarationToExpression` from the source: the dynamic-import
expression (or custom-import call) for an import or re-export declaration.
When attributes are present, the second argument is an object wrapping
`convertImportAttributes`'s result under a `with` key. -/
def esmDeclarationToExpression (source : JSValue) (attributes : List ImportAttribute)
    (importName : Option String) : Expr :=
  let options : Option Expr :=
    if attributes.length != 0 then
      some (.objectExpr
        [.prop false false false (.identifier "with") (convertImportAttributes attributes)])
    else
      none
  match importName with
  | some name =>
      .call false (.identifier name)
        (.literal source :: (match options with | some o => [o] | none => []))
  | none => .importExpr (.literal source) options

/-- The `MemberExpression` arm of `singularImport` from the source: when the
object is itself a member expression, collapse it to its own object
(`_imports[n].p` becomes `_imports.p`). -/
def singularImportMember : Expr → Expr
  | .member computed optional (.member _ _ object _) property =>
      .member computed optional object property
  | e => e

/-- The `Property` and `SpreadElement` arms of `singularImport` from the
source: when the value (or spread argument) is a member expression on an
identifier, replace it by that identifier (`_imports[n]` becomes
`_imports`). -/
def singularImportEntry : OMember → OMember
  | .prop computed method shorthand key (.member _ _ (.identifier object) _) =>
      .prop computed method shorthand key (.identifier object)
  | .spread (.member _ _ (.identifier object) _) => .spread (.identifier object)
  | e => e

/-- The `.then(({ default: _, ...m }) => m)` wrapper the source attaches to a
bare `export *` import so the namespace arrives with its `default` key
stripped. -/
def stripDefaultThen (e : Expr) : Expr :=
  .call false (.member false false e (.identifier "then"))
    [.arrow true
      [.objectPat
        [.prop false false (.ident "default") (.identifier "_"),
         .restP (.identifier "m")]]
      (.identifier "m")]

/-- A reference recorded in the source's `toPatch` array.  The source stores
node references that alias into `exports`; here each reference is recorded
as the index of the aliased export entry together with which node was
stored: the member expression held as the entry's value (re-export
specifiers push the `MemberExpression`) or the entry itself
(`ExportAllDeclaration` pushes the `Property`/`SpreadElement`). -/
inductive PatchTarget where
  | memberValue (index : Nat)
  | wholeNode (index : Nat)

/-- The index of a patch reference. -/
def PatchTarget.index : PatchTarget → Nat
  | .memberValue i => i
  | .wholeNode i => i

/-- The two properties the source seeds `exports` with: `__proto__: null`
and `[Symbol.toStringTag]: 'Module'`. -/
def initialExports : List OMember :=
  [.prop false false false (.identifier "__proto__") (.literal .null),
   .prop true false false
     (.member false false (.identifier "Symbol") (.identifier "toStringTag"))
     (.literal (.str "Module"))]

/-- The accumulator state of `moduleToFunction`'s walk: the captured
directive and the `importAssignments`, `importExpressions`, `toPatch` and
`exports` arrays. -/
structure WState where
  directive : Option Stmt
  importAssignments : List (Option Pat)
  importExpressions : List Expr
  toPatch : List PatchTarget
  exports : List OMember

/-- The state at the start of the walk. -/
def initState : WState :=
  { directive := none, importAssignments := [], importExpressions := [],
    toPatch := [], exports := initialExports }

/-- The specifier loop of the `ImportDeclaration` case: the accumulated
object-pattern properties (default specifiers map to the key `default`;
named specifiers are shorthand exactly when imported and local names are
equal identifiers; namespace specifiers add no property). -/
def importDeclProperties (specifiers : List ImpSpec) : List ObjPatProp :=
  specifiers.filterMap fun specifier =>
    match specifier with
    | .defaultS localName =>
        some (.prop false false (.ident "default") (.identifier localName))
    | .namespaceS _ => none
    | .namedS imported localName =>
        some (.prop false (isShorthand imported.toExpr (.identifier localName))
          imported (.identifier localName))

/-- The `starIdentifier` variable of the `ImportDeclaration` case: the local
name of the last namespace specifier, if any. -/
def importDeclStar (specifiers : List ImpSpec) : Option String :=
  specifiers.foldl
    (fun acc specifier =>
      match specifier with
      | .namespaceS localName => some localName
      | _ => acc)
    none

mutual
/-- The expression part of the walk.  The `enter` callback rewrites
`ImportExpression` and `MetaProperty` nodes when an import name is
configured (`convertImportExpression` / `convertMetaProperty`); all other
expression kinds are just traversed.  Replaced nodes have their children
walked, as `estree-walker` does.  Patterns contain no expressions in this
model, so they are left as they are. -/
def walkExpr (importName : Option String) : Expr → Expr
  | .identifier n => .identifier n
  | .literal v => .literal v
  | .member computed optional object property =>
      .member computed optional (walkExpr importName object) (walkExpr importName property)
  | .call optional callee args =>
      .call optional (walkExpr importName callee) (walkExprs importName args)
  | .importExpr source options =>
      match importName with
      | some name =>
          .call false (.identifier name)
            (walkExpr importName source ::
              (match options with
               | some o => [walkExpr importName o]
               | none => []))
      | none =>
          .importExpr (walkExpr importName source)
            (match options with
             | some o => some (walkExpr importName o)
             | none => none)
  | .metaProperty meta property =>
      match importName with
      | some name => .member false false (.identifier name) (.identifier property)
      | none => .metaProperty meta property
  | .objectExpr properties => .objectExpr (walkOMembers importName properties)
  | .arrayExpr elements => .arrayExpr (walkOptExprs importName elements)
  | .awaitExpr argument => .awaitExpr (walkExpr importName argument)
  | .arrow expression params body => .arrow expression params (walkExpr importName body)

/-- Walk a list of expressions (call arguments). -/
def walkExprs (importName : Option String) : List Expr → List Expr
  | [] => []
  | e :: rest => walkExpr importName e :: walkExprs importName rest

/-- Walk the elements of an array expression. -/
def walkOptExprs (importName : Option String) : List (Option Expr) → List (Option Expr)
  | [] => []
  | none :: rest => none :: walkOptExprs importName rest
  | some e :: rest => some (walkExpr importName e) :: walkOptExprs importName rest

/-- Walk the members of an object expression. -/
def walkOMembers (importName : Option String) : List OMember → List OMember
  | [] => []
  | .prop computed method shorthand key value :: rest =>
      .prop computed method shorthand (walkExpr importName key) (walkExpr importName value) ::
        walkOMembers importName rest
  | .spread argument :: rest =>
      .spread (walkExpr importName argument) :: walkOMembers importName rest
end

/-- Walk the declarator list of a variable declaration (initializers are
expressions; binding patterns hold no expressions in this model). -/
def walkDtors (importName : Option String) : List VarDtor → List VarDtor
  | [] => []
  | ⟨id, init⟩ :: rest =>
      ⟨id, match init with
           | some e => some (walkExpr importName e)
           | none => none⟩ :: walkDtors importName rest

/-- The `local` name of a re-export specifier after the `__proto__` guard of
the source: a local identifier named `__proto__` is replaced by a string
literal. -/
def reexpLocal (sp : ExpSpec) : IdLit :=
  match sp.localName with
  | .ident n => if n == "__proto__" then .lit (.str "__proto__") else .ident n
  | l => l

/-- The member expression `_imports[idx].local` built for one re-export
specifier (computed access when the local name is a literal). -/
def reexpMember (idx : Int) (sp : ExpSpec) : Expr :=
  .member (reexpLocal sp).isLit false
    (.member true false (.identifier "_imports") (.literal (.num idx)))
    (reexpLocal sp).toExpr

/-- The export entry built for one re-export specifier. -/
def reexpEntry (idx : Int) (sp : ExpSpec) : OMember :=
  createProperty sp.exported.toExpr (reexpMember idx sp)

/-- The specifier loop of the `ExportNamedDeclaration`-with-source case: for
each specifier, push the export entry and record the member expression in
`toPatch`.  `idx` is the value of `importExpressions.length` for the whole
loop, since the corresponding import is pushed only after it. -/
def reexportLoop (idx : Int) (st : WState) : List ExpSpec → WState
  | [] => st
  | specifier :: rest =>
      reexportLoop idx
        { st with
            exports := st.exports ++ [reexpEntry idx specifier],
            toPatch := st.toPatch ++ [.memberValue st.exports.length] }
        rest

mutual
/-- The statement part of the walk: the `enter` callback of
`moduleToFunction`, together with the traversal of the children of kept or
replaced statements.  The result statement is `none` when the callback
removed the node (`this.remove()`). -/
def walkStmt (importName : Option String) (st : WState) : Stmt → WState × Option Stmt
  | .exprStmt expression =>
      match expression with
      | .literal v =>
          if v == .str "use strict" then
            ({ st with
                directive :=
                  match st.directive with
                  | some d => some d
                  | none => some (.exprStmt (.literal v)) },
             none)
          else
            (st, some (.exprStmt (.literal v)))
      | e => (st, some (.exprStmt (walkExpr importName e)))
  | .varDecl kind declarations =>
      (st, some (.varDecl kind (walkDtors importName declarations)))
  | .funcDecl id params body =>
      let (st', body') := walkStmts importName st body
      (st', some (.funcDecl id params body'))
  | .classDecl id => (st, some (.classDecl id))
  | .returnStmt argument =>
      (st, some (.returnStmt
        (match argument with
         | some e => some (walkExpr importName e)
         | none => none)))
  | .importDecl specifiers source attributes =>
      let properties := importDeclProperties specifiers
      let starIdentifier := importDeclStar specifiers
      ({ st with
          importAssignments := st.importAssignments ++
            [if properties.length != 0 then some (.objectPat properties)
             else starIdentifier.map Pat.identifier],
          importExpressions := st.importExpressions ++
            [esmDeclarationToExpression source attributes importName] },
       none)
  | .exportDefault declaration =>
      match declaration with
      | .fnD id params body =>
          let name := id.getD "__default_export__"
          let st :=
            { st with exports := st.exports ++
                [createProperty (.identifier "default") (.identifier name)] }
          let (st', body') := walkStmts importName st body
          (st', some (.funcDecl name params body'))
      | .clsD id =>
          let name := id.getD "__default_export__"
          ({ st with exports := st.exports ++
              [createProperty (.identifier "default") (.identifier name)] },
           some (.classDecl name))
      | .exprD e =>
          ({ st with exports := st.exports ++
              [createProperty (.identifier "default") (.identifier "__default_export__")] },
           some (.varDecl "const"
             [⟨.identifier "__default_export__", some (walkExpr importName e)⟩]))
  | .exportNamed declaration specifiers source attributes =>
      match declaration with
      | some d =>
          let st := { st with exports := st.exports ++ extractExportNames d }
          match d with
          | .varD kind declarations =>
              (st, some (.varDecl kind (walkDtors importName declarations)))
          | .funcD id params body =>
              let (st', body') := walkStmts importName st body
              (st', some (.funcDecl id params body'))
          | .classD id => (st, some (.classDecl id))
      | none =>
          match source with
          | none =>
              ({ st with exports := st.exports ++
                  specifiers.map fun specifier =>
                    createProperty specifier.exported.toExpr specifier.localName.toExpr },
               none)
          | some src =>
              let st := reexportLoop (st.importExpressions.length : Int) st specifiers
              ({ st with
                  importAssignments := st.importAssignments ++ [none],
                  importExpressions := st.importExpressions ++
                    [esmDeclarationToExpression src attributes importName] },
               none)
  | .exportAll exported source attributes =>
      let memberExpression : Expr :=
        .member true false (.identifier "_imports")
          (.literal (.num (st.importExpressions.length : Int)))
      let property : OMember :=
        match exported with
        | some ex => createProperty ex.toExpr memberExpression
        | none => .spread memberExpression
      let esmExpression := esmDeclarationToExpression source attributes importName
      ({ st with
          exports := st.exports ++ [property],
          toPatch := st.toPatch ++ [.wholeNode st.exports.length],
          importAssignments := st.importAssignments ++ [none],
          importExpressions := st.importExpressions ++
            [match exported with
             | some _ => esmExpression
             | none => stripDefaultThen esmExpression] },
       none)

/-- Walk a statement list, dropping removed statements. -/
def walkStmts (importName : Option String) (st : WState) : List Stmt → WState × List Stmt
  | [] => (st, [])
  | s :: rest =>
      let (st1, s') := walkStmt importName st s
      let (st2, rest') := walkStmts importName st1 rest
      (st2,
        match s' with
        | some x => x :: rest'
        | none => rest')
end

/-- Replace the element at an index of a list (identity when out of range). -/
def modifyAt (l : List α) (i : Nat) (f : α → α) : List α :=
  match l, i with
  | [], _ => []
  | x :: rest, 0 => f x :: rest
  | x :: rest, i + 1 => x :: modifyAt rest i f

/-- Apply the in-place mutation of one `singularImport(node)` call to the
export entry the recorded reference aliases into. -/
def applyPatch (exports : List OMember) : PatchTarget → List OMember
  | .memberValue i =>
      modifyAt exports i fun m =>
        match m with
        | .prop computed method shorthand key value =>
            .prop computed method shorthand key (singularImportMember value)
        | m => m
  | .wholeNode i => modifyAt exports i singularImportEntry

/-- The `for (const node of toPatch) singularImport(node)` loop of the
finalization, applied to the `exports` array the references alias into. -/
def applyPatches (toPatch : List PatchTarget) (exports : List OMember) : List OMember :=
  toPatch.foldl applyPatch exports

/-- The `Promise.all([...])` fan-in expression built when more than a single
operation was recorded. -/
def promiseAllExpr (importExpressions : List Expr) : Expr :=
  .call false (.member false false (.identifier "Promise") (.identifier "all"))
    [.arrayExpr (importExpressions.map some)]

/-- The `while (importAssignments.length && !importAssignments.at(-1))
importAssignments.pop()` loop: remove the trailing `null` binding slots. -/
def trimTrailingNone (l : List (Option Pat)) : List (Option Pat) :=
  (l.reverse.dropWhile Option.isNone).reverse

/-- A synthesized `'use strict'` directive statement. -/
def useStrictStmt : Stmt := .exprStmt (.literal (.str "use strict"))

/-- The combined import expression the prologue awaits: with one recorded
import, that import expression itself; with several, the `Promise.all`
fan-in. -/
def prologueImportExpression (st : WState) : Expr :=
  if st.importExpressions.length == 1 then
    st.importExpressions.headD (.literal .null)
  else
    promiseAllExpr st.importExpressions

/-- The binding the awaited result is destructured into: with one recorded
import, its own binding slot; with several, an array pattern of the slots
with trailing unused slots trimmed. -/
def prologueImportAssignment (st : WState) : Option Pat :=
  if st.importExpressions.length == 1 then
    st.importAssignments.headD none
  else
    some (.arrayPat (trimTrailingNone st.importAssignments))

/-- The import prologue statement, as assembled by the finalization: when
`toPatch` is nonempty the awaited result is first bound to `_imports` (and
the binding pattern, if any, is destructured from `_imports` in a second
declarator); otherwise the await is bound directly to the pattern, or stands
alone as an expression statement for side-effect-only imports. -/
def mkPrologue (st : WState) : Stmt :=
  let importExpression := prologueImportExpression st
  let importAssignment := prologueImportAssignment st
  if st.toPatch.length != 0 then
    .varDecl "const"
      (⟨.identifier "_imports", some (.awaitExpr importExpression)⟩ ::
        (match importAssignment with
         | some p => [⟨p, some (.identifier "_imports")⟩]
         | none => []))
  else
    match importAssignment with
    | some p => .varDecl "const" [⟨p, some (.awaitExpr importExpression)⟩]
    | none => .exprStmt (.awaitExpr importExpression)

/-- The export entries of the returned object after finalization: with
exactly one recorded import, the entries aliased by `toPatch` have been
mutated by `singularImport`; otherwise they are as collected. -/
def finalExports (st : WState) : List OMember :=
  if st.importExpressions.length == 1 then applyPatches st.toPatch st.exports
  else st.exports

/-- The finalization of `moduleToFunction`: prepend the import prologue (when
imports were recorded), prepend the directive (the captured one or a fresh
`'use strict'`), and append the return of the exports object. -/
def finalize (st : WState) (walked : List Stmt) : List Stmt :=
  let withPrologue :=
    if st.importExpressions.length != 0 then mkPrologue st :: walked
    else walked
  ((st.directive.getD useStrictStmt) :: withPrologue) ++
    [.returnStmt (some (.objectExpr (finalExports st)))]

/-- `moduleToFunction` from the source: walk the program, collecting import
operations and export entries and removing or rewriting ESM syntax, then
assemble the directive, the import prologue, and the return-object
epilogue.  (The source mutates `ast` in place; here the rewritten program is
returned.) -/
def moduleToFunction (ast : Program) (importName : Option String) : Program :=
  let (st, walked) := walkStmts importName initState ast.body
  ⟨finalize st walked⟩

/-! ## Predicates over the rewritten tree -/

mutual
/-- Does any subexpression (the expression itself included) satisfy `p`? -/
def anyExpr (p : Expr → Bool) : Expr → Bool
  | .identifier n => p (.identifier n)
  | .literal v => p (.literal v)
  | .member c o obj pr => p (.member c o obj pr) || anyExpr p obj || anyExpr p pr
  | .call o f args => p (.call o f args) || anyExpr p f || anyExprList p args
  | .importExpr s o => p (.importExpr s o) || anyExpr p s || anyOptExpr p o
  | .metaProperty m pr => p (.metaProperty m pr)
  | .objectExpr ms => p (.objectExpr ms) || anyOMemberList p ms
  | .arrayExpr es => p (.arrayExpr es) || anyOptExprList p es
  | .awaitExpr a => p (.awaitExpr a) || anyExpr p a
  | .arrow ex ps b => p (.arrow ex ps b) || anyExpr p b

/-- `anyExpr` over a list of expressions. -/
def anyExprList (p : Expr → Bool) : List Expr → Bool
  | [] => false
  | e :: rest => anyExpr p e || anyExprList p rest

/-- `anyExpr` over an optional expression. -/
def anyOptExpr (p : Expr → Bool) : Option Expr → Bool
  | none => false
  | some e => anyExpr p e

/-- `anyExpr` over array-expression elements. -/
def anyOptExprList (p : Expr → Bool) : List (Option Expr) → Bool
  | [] => false
  | none :: rest => anyOptExprList p rest
  | some e :: rest => anyExpr p e || anyOptExprList p rest

/-- `anyExpr` over object members (keys, values and spread arguments). -/
def anyOMemberList (p : Expr → Bool) : List OMember → Bool
  | [] => false
  | .prop _ _ _ k v :: rest => anyExpr p k || anyExpr p v || anyOMemberList p rest
  | .spread a :: rest => anyExpr p a || anyOMemberList p rest
end

/-- Does any expression inside one object member satisfy `p`? -/
def entryAnyE (p : Expr → Bool) : OMember → Bool
  | .prop _ _ _ k v => anyExpr p k || anyExpr p v
  | .spread a => anyExpr p a

/-- `anyExpr` over variable declarator initializers. -/
def dtorsAny (q : Expr → Bool) (ds : List VarDtor) : Bool :=
  ds.any fun d => anyOptExpr q d.init

mutual
/-- Does the statement, or any statement or expression nested in it, satisfy
the statement predicate `p` or the expression predicate `q`? -/
def stmtAny (p : Stmt → Bool) (q : Expr → Bool) : Stmt → Bool
  | .exprStmt e => p (.exprStmt e) || anyExpr q e
  | .varDecl k ds => p (.varDecl k ds) || dtorsAny q ds
  | .funcDecl id ps body => p (.funcDecl id ps body) || stmtListAny p q body
  | .classDecl id => p (.classDecl id)
  | .returnStmt a => p (.returnStmt a) || anyOptExpr q a
  | .importDecl sp src attrs => p (.importDecl sp src attrs)
  | .exportNamed d sp src attrs =>
      p (.exportNamed d sp src attrs) ||
        (match d with
         | some (.varD _ ds) => dtorsAny q ds
         | some (.funcD _ _ body) => stmtListAny p q body
         | some (.classD _) => false
         | none => false)
  | .exportDefault d =>
      p (.exportDefault d) ||
        (match d with
         | .fnD _ _ body => stmtListAny p q body
         | .clsD _ => false
         | .exprD e => anyExpr q e)
  | .exportAll e src attrs => p (.exportAll e src attrs)

/-- `stmtAny` over a statement list. -/
def stmtListAny (p : Stmt → Bool) (q : Expr → Bool) : List Stmt → Bool
  | [] => false
  | s :: rest => stmtAny p q s || stmtListAny p q rest
end

/-- Is the statement one of the four ESM declaration kinds
(`ImportDeclaration`, `ExportNamedDeclaration`, `ExportDefaultDeclaration`,
`ExportAllDeclaration`)? -/
def isEsmStmt : Stmt → Bool
  | .importDecl _ _ _ => true
  | .exportNamed _ _ _ _ => true
  | .exportDefault _ => true
  | .exportAll _ _ _ => true
  | _ => false

/-- Is the expression an `ImportExpression` or a `MetaProperty`? -/
def isImportMetaE : Expr → Bool
  | .importExpr _ _ => true
  | .metaProperty _ _ => true
  | _ => false

/-- Is the expression a numeric index access on the `_imports` identifier
(the shape `_imports[n]` used to pick one import's result out of the
combined fan-in array)? -/
def isImportsIdx : Expr → Bool
  | .member _ _ (.identifier o) (.literal (.num _)) => o == "_imports"
  | _ => false

/-- Is the expression a `Promise.all(...)` call? -/
def isPACall : Expr → Bool
  | .call _ (.member _ _ (.identifier o) (.identifier pr)) _ =>
      o == "Promise" && pr == "all"
  | _ => false

/-- Is the statement a `'use strict'` directive statement (an
`ExpressionStatement` whose expression is a `Literal` with value
`'use strict'`)? -/
def isUseStrictS : Stmt → Bool
  | .exprStmt (.literal v) => v == .str "use strict"
  | _ => false

/-- An export specifier name that is a non-string literal.  Syntactically
valid ECMAScript only allows identifiers and string literals as module
export names. -/
def badName : IdLit → Bool
  | .ident _ => false
  | .lit (.str _) => false
  | .lit _ => true

/-- Does the statement carry an export specifier whose local name is a
non-string literal (impossible in a syntactically valid module)? -/
def hasBadSpecifier : Stmt → Bool
  | .exportNamed _ specs _ _ => specs.any fun sp => badName sp.localName
  | _ => false

/-- Well-formedness of a statement list: no export specifier anywhere has a
non-string-literal local name.  Every syntactically valid ECMAScript module
satisfies this. -/
def wfStmts (l : List Stmt) : Prop :=
  stmtListAny hasBadSpecifier (fun _ => false) l = false

/-- The statement contains no ESM declaration node anywhere. -/
def stmtNoEsm (s : Stmt) : Prop := stmtAny isEsmStmt (fun _ => false) s = false

/-- The statement contains no `'use strict'` directive statement anywhere. -/
def stmtNoUseStrict (s : Stmt) : Prop := stmtAny isUseStrictS (fun _ => false) s = false

/-- The statement contains no `ImportExpression` or `MetaProperty` node. -/
def stmtNoMeta (s : Stmt) : Prop := stmtAny (fun _ => false) isImportMetaE s = false

/-! ## Basic lemmas about the predicate and walk families -/

mutual
theorem anyExpr_of_false (p : Expr → Bool) (hp : ∀ e, p e = false) (e : Expr) :
    anyExpr p e = false := by
  cases e with
  | identifier n => simp [anyExpr, hp]
  | literal v => simp [anyExpr, hp]
  | member c o obj pr =>
      simp [anyExpr, hp, anyExpr_of_false p hp obj, anyExpr_of_false p hp pr]
  | call o f args =>
      simp [anyExpr, hp, anyExpr_of_false p hp f, anyExprList_of_false p hp args]
  | importExpr s o =>
      simp [anyExpr, hp, anyExpr_of_false p hp s, anyOptExpr_of_false p hp o]
  | metaProperty m pr => simp [anyExpr, hp]
  | objectExpr ms => simp [anyExpr, hp, anyOMemberList_of_false p hp ms]
  | arrayExpr es => simp [anyExpr, hp, anyOptExprList_of_false p hp es]
  | awaitExpr a => simp [anyExpr, hp, anyExpr_of_false p hp a]
  | arrow ex ps b => simp [anyExpr, hp, anyExpr_of_false p hp b]

theorem anyExprList_of_false (p : Expr → Bool) (hp : ∀ e, p e = false) (l : List Expr) :
    anyExprList p l = false := by
  cases l with
  | nil => simp [anyExprList]
  | cons e rest =>
      simp [anyExprList, anyExpr_of_false p hp e, anyExprList_of_false p hp rest]

theorem anyOptExpr_of_false (p : Expr → Bool) (hp : ∀ e, p e = false) (o : Option Expr) :
    anyOptExpr p o = false := by
  cases o with
  | none => simp [anyOptExpr]
  | some e => simp [anyOptExpr, anyExpr_of_false p hp e]

theorem anyOptExprList_of_false (p : Expr → Bool) (hp : ∀ e, p e = false)
    (l : List (Option Expr)) : anyOptExprList p l = false := by
  cases l with
  | nil => simp [anyOptExprList]
  | cons o rest =>
      cases o with
      | none => simp [anyOptExprList, anyOptExprList_of_false p hp rest]
      | some e =>
          simp [anyOptExprList, anyExpr_of_false p hp e, anyOptExprList_of_false p hp rest]

theorem anyOMemberList_of_false (p : Expr → Bool) (hp : ∀ e, p e = false)
    (l : List OMember) : anyOMemberList p l = false := by
  cases l with
  | nil => simp [anyOMemberList]
  | cons m rest =>
      cases m with
      | prop c me sh k v =>
          simp [anyOMemberList, anyExpr_of_false p hp k, anyExpr_of_false p hp v,
            anyOMemberList_of_false p hp rest]
      | spread a =>
          simp [anyOMemberList, anyExpr_of_false p hp a, anyOMemberList_of_false p hp rest]
end

theorem stmtListAny_eq_false {p : Stmt → Bool} {q : Expr → Bool} (l : List Stmt) :
    stmtListAny p q l = false ↔ ∀ s ∈ l, stmtAny p q s = false := by
  induction l with
  | nil => simp [stmtListAny]
  | cons s rest ih => simp [stmtListAny, ih]

theorem anyExprList_eq_false {p : Expr → Bool} (l : List Expr) :
    anyExprList p l = false ↔ ∀ e ∈ l, anyExpr p e = false := by
  induction l with
  | nil => simp [anyExprList]
  | cons e rest ih => simp [anyExprList, ih]

theorem anyOptExprList_map_some (p : Expr → Bool) (l : List Expr) :
    anyOptExprList p (l.map some) = anyExprList p l := by
  induction l with
  | nil => simp [anyOptExprList, anyExprList]
  | cons e rest ih => simp [anyOptExprList, anyExprList, ih]

mutual
theorem walkExpr_none (e : Expr) : walkExpr none e = e := by
  cases e with
  | identifier n => simp [walkExpr]
  | literal v => simp [walkExpr]
  | member c o obj pr => simp [walkExpr, walkExpr_none obj, walkExpr_none pr]
  | call o f args => simp [walkExpr, walkExpr_none f, walkExprs_none args]
  | importExpr s o =>
      cases o with
      | none => simp [walkExpr, walkExpr_none s]
      | some oe => simp [walkExpr, walkExpr_none s, walkExpr_none oe]
  | metaProperty m pr => simp [walkExpr]
  | objectExpr ms => simp [walkExpr, walkOMembers_none ms]
  | arrayExpr es => simp [walkExpr, walkOptExprs_none es]
  | awaitExpr a => simp [walkExpr, walkExpr_none a]
  | arrow ex ps b => simp [walkExpr, walkExpr_none b]

theorem walkExprs_none (l : List Expr) : walkExprs none l = l := by
  cases l with
  | nil => simp [walkExprs]
  | cons e rest => simp [walkExprs, walkExpr_none e, walkExprs_none rest]

theorem walkOptExprs_none (l : List (Option Expr)) : walkOptExprs none l = l := by
  cases l with
  | nil => simp [walkOptExprs]
  | cons o rest =>
      cases o with
      | none => simp [walkOptExprs, walkOptExprs_none rest]
      | some e => simp [walkOptExprs, walkExpr_none e, walkOptExprs_none rest]

theorem walkOMembers_none (l : List OMember) : walkOMembers none l = l := by
  cases l with
  | nil => simp [walkOMembers]
  | cons m rest =>
      cases m with
      | prop c me sh k v =>
          simp [walkOMembers, walkExpr_none k, walkExpr_none v, walkOMembers_none rest]
      | spread a => simp [walkOMembers, walkExpr_none a, walkOMembers_none rest]
end

mutual
theorem walkExpr_noMeta (nm : String) (e : Expr) :
    anyExpr isImportMetaE (walkExpr (some nm) e) = false := by
  cases e with
  | identifier n => simp [walkExpr, anyExpr, isImportMetaE]
  | literal v => simp [walkExpr, anyExpr, isImportMetaE]
  | member c o obj pr =>
      simp [walkExpr, anyExpr, isImportMetaE, walkExpr_noMeta nm obj, walkExpr_noMeta nm pr]
  | call o f args =>
      simp [walkExpr, anyExpr, isImportMetaE, walkExpr_noMeta nm f, walkExprs_noMeta nm args]
  | importExpr s o =>
      cases o with
      | none =>
          simp [walkExpr, anyExpr, anyExprList, anyOptExpr, isImportMetaE, walkExpr_noMeta nm s]
      | some oe =>
          simp [walkExpr, anyExpr, anyExprList, anyOptExpr, isImportMetaE,
            walkExpr_noMeta nm s, walkExpr_noMeta nm oe]
  | metaProperty m pr => simp [walkExpr, anyExpr, isImportMetaE]
  | objectExpr ms => simp [walkExpr, anyExpr, isImportMetaE, walkOMembers_noMeta nm ms]
  | arrayExpr es => simp [walkExpr, anyExpr, isImportMetaE, walkOptExprs_noMeta nm es]
  | awaitExpr a => simp [walkExpr, anyExpr, isImportMetaE, walkExpr_noMeta nm a]
  | arrow ex ps b => simp [walkExpr, anyExpr, isImportMetaE, walkExpr_noMeta nm b]

theorem walkExprs_noMeta (nm : String) (l : List Expr) :
    anyExprList isImportMetaE (walkExprs (some nm) l) = false := by
  cases l with
  | nil => simp [walkExprs, anyExprList]
  | cons e rest =>
      simp [walkExprs, anyExprList, walkExpr_noMeta nm e, walkExprs_noMeta nm rest]

theorem walkOptExprs_noMeta (nm : String) (l : List (Option Expr)) :
    anyOptExprList isImportMetaE (walkOptExprs (some nm) l) = false := by
  cases l with
  | nil => simp [walkOptExprs, anyOptExprList]
  | cons o rest =>
      cases o with
      | none => simp [walkOptExprs, anyOptExprList, walkOptExprs_noMeta nm rest]
      | some e =>
          simp [walkOptExprs, anyOptExprList, walkExpr_noMeta nm e, walkOptExprs_noMeta nm rest]

theorem walkOMembers_noMeta (nm : String) (l : List OMember) :
    anyOMemberList isImportMetaE (walkOMembers (some nm) l) = false := by
  cases l with
  | nil => simp [walkOMembers, anyOMemberList]
  | cons m rest =>
      cases m with
      | prop c me sh k v =>
          simp [walkOMembers, anyOMemberList, walkExpr_noMeta nm k, walkExpr_noMeta nm v,
            walkOMembers_noMeta nm rest]
      | spread a =>
          simp [walkOMembers, anyOMemberList, walkExpr_noMeta nm a, walkOMembers_noMeta nm rest]
end

/-! ## The walk-state invariant -/

theorem modifyAt_length (l : List α) (i : Nat) (f : α → α) :
    (modifyAt l i f).length = l.length := by
  induction l generalizing i with
  | nil => simp [modifyAt]
  | cons x rest ih =>
      cases i with
      | zero => simp [modifyAt]
      | succ j => simp [modifyAt, ih]

theorem modifyAt_getElem? (l : List α) (i : Nat) (f : α → α) (j : Nat) :
    (modifyAt l i f)[j]? = if i = j then (l[j]?).map f else l[j]? := by
  induction l generalizing i j with
  | nil => simp [modifyAt]
  | cons x rest ih =>
      cases i with
      | zero =>
          cases j with
          | zero => simp [modifyAt]
          | succ j' => simp [modifyAt]
      | succ i' =>
          cases j with
          | zero => simp [modifyAt]
          | succ j' => simpa [modifyAt] using ih i' j'

/-- An identifier or string-literal node (the only shapes a syntactically
valid export specifier name can take). -/
def plainNameE (e : Expr) : Prop :=
  (∃ n, e = .identifier n) ∨ (∃ s, e = .literal (.str s))

/-- The shape of the export entry a recorded `toPatch` reference aliases
into, exactly as the rewriter constructed it: a re-export specifier entry
holds `_imports[n].p` as its value; an `export *` entry holds `_imports[n]`
as a property value or a spread argument. -/
def targetShape (exports : List OMember) : PatchTarget → Prop
  | .memberValue i => ∃ c sh k c2 o2 p n,
      exports[i]? = some (.prop c false sh k
        (.member c2 o2
          (.member true false (.identifier "_imports") (.literal (.num n))) p)) ∧
      anyExpr isImportsIdx k = false ∧ plainNameE p
  | .wholeNode i =>
      (∃ c sh k n, exports[i]? = some (.prop c false sh k
          (.member true false (.identifier "_imports") (.literal (.num n)))) ∧
        anyExpr isImportsIdx k = false) ∨
      (∃ n, exports[i]? = some (.spread
          (.member true false (.identifier "_imports") (.literal (.num n)))))

/-- The invariant maintained by the walk over the accumulator state. -/
structure StInv (importName : Option String) (st : WState) : Prop where
  directive_shape : st.directive = none ∨ st.directive = some useStrictStmt
  ops_noPA : ∀ e ∈ st.importExpressions, anyExpr isPACall e = false
  ops_noMeta : ∀ nm, importName = some nm →
    ∀ e ∈ st.importExpressions, anyExpr isImportMetaE e = false
  exports_noMeta : ∀ m ∈ st.exports, entryAnyE isImportMetaE m = false
  targets_sorted : st.toPatch.Pairwise fun a b => a.index < b.index
  targets_bound : ∀ t ∈ st.toPatch, t.index < st.exports.length
  targets_shape : ∀ t ∈ st.toPatch, targetShape st.exports t
  untargeted_clean : ∀ i, (∀ t ∈ st.toPatch, t.index ≠ i) →
    ∀ m, st.exports[i]? = some m → entryAnyE isImportsIdx m = false

theorem initState_inv (importName : Option String) : StInv importName initState := by
  refine ⟨Or.inl rfl, ?_, ?_, ?_, ?_, ?_, ?_, ?_⟩
  · intro e he; simp [initState] at he
  · intro nm _ e he; simp [initState] at he
  · intro m hm
    simp only [initState, initialExports, List.mem_cons, List.mem_singleton] at hm
    rcases hm with h | h | h
    · subst h; simp [entryAnyE, anyExpr, isImportMetaE]
    · subst h; simp [entryAnyE, anyExpr, isImportMetaE]
    · simp at h
  · simp [initState]
  · intro t ht; simp [initState] at ht
  · intro t ht; simp [initState] at ht
  · intro i _ m hm
    simp only [initState, initialExports] at hm
    rcases i with _ | _ | i
    · simp at hm; subst hm; simp [entryAnyE, anyExpr, isImportsIdx]
    · simp at hm; subst hm; simp [entryAnyE, anyExpr, isImportsIdx]
    · simp at hm

/-! ## Correctness of the `singularImport` patching pass -/

theorem applyPatch_getElem?_ne (exports : List OMember) (t : PatchTarget) (j : Nat)
    (h : j ≠ t.index) : (applyPatch exports t)[j]? = exports[j]? := by
  cases t with
  | memberValue i =>
      simp only [PatchTarget.index] at h
      simp only [applyPatch]
      rw [modifyAt_getElem?, if_neg (fun hh => h hh.symm)]
  | wholeNode i =>
      simp only [PatchTarget.index] at h
      simp only [applyPatch]
      rw [modifyAt_getElem?, if_neg (fun hh => h hh.symm)]

theorem targetShape_congr (exports exports' : List OMember) (t : PatchTarget)
    (h : exports'[t.index]? = exports[t.index]?) (hs : targetShape exports t) :
    targetShape exports' t := by
  cases t with
  | memberValue i =>
      simp only [targetShape, PatchTarget.index] at hs h ⊢
      rwa [h]
  | wholeNode i =>
      simp only [targetShape, PatchTarget.index] at hs h ⊢
      rwa [h]

theorem patch_at_clean (exports : List OMember) (t : PatchTarget)
    (hs : targetShape exports t) :
    ∀ m, (applyPatch exports t)[t.index]? = some m →
      entryAnyE isImportsIdx m = false := by
  intro m hm
  cases t with
  | memberValue i =>
      obtain ⟨c, sh, k, c2, o2, p, n, hent, hk, hp⟩ := hs
      simp only [applyPatch, PatchTarget.index] at hm
      rw [modifyAt_getElem?, if_pos rfl, hent] at hm
      simp only [Option.map] at hm
      cases hm
      rcases hp with ⟨nm, rfl⟩ | ⟨str, rfl⟩ <;>
        simp [singularImportMember, entryAnyE, anyExpr, isImportsIdx, hk]
  | wholeNode i =>
      simp only [applyPatch, PatchTarget.index] at hm
      rcases hs with ⟨c, sh, k, n, hent, hk⟩ | ⟨n, hent⟩
      · rw [modifyAt_getElem?, if_pos rfl, hent] at hm
        simp only [Option.map] at hm
        cases hm
        simp [singularImportEntry, entryAnyE, anyExpr, isImportsIdx, hk]
      · rw [modifyAt_getElem?, if_pos rfl, hent] at hm
        simp only [Option.map] at hm
        cases hm
        simp [singularImportEntry, entryAnyE, anyExpr, isImportsIdx]

/-- The facts about the `toPatch` references and the `exports` array that the
walk maintains and the patching pass needs. -/
def patchOK (targets : List PatchTarget) (exports : List OMember) : Prop :=
  targets.Pairwise (fun a b => a.index < b.index) ∧
  (∀ t ∈ targets, targetShape exports t) ∧
  (∀ i, (∀ t ∈ targets, t.index ≠ i) →
    ∀ m, exports[i]? = some m → entryAnyE isImportsIdx m = false)

theorem applyPatches_clean (targets : List PatchTarget) :
    ∀ exports, patchOK targets exports →
      ∀ (i : Nat) (m : OMember), (applyPatches targets exports)[i]? = some m →
        entryAnyE isImportsIdx m = false := by
  induction targets with
  | nil =>
      intro exports h i m hm
      simp only [applyPatches, List.foldl_nil] at hm
      refine h.2.2 i ?_ m hm
      intro t ht
      simp at ht
  | cons t ts ih =>
      intro exports h i m hm
      obtain ⟨hpair, hshape, hclean⟩ := h
      rw [List.pairwise_cons] at hpair
      have hstep : patchOK ts (applyPatch exports t) := by
        refine ⟨hpair.2, ?_, ?_⟩
        · intro t' ht'
          refine targetShape_congr exports _ t' ?_ (hshape t' (by simp [ht']))
          exact applyPatch_getElem?_ne exports t t'.index
            (Nat.ne_of_gt (hpair.1 t' ht'))
        · intro j hj m' hm'
          by_cases hit : j = t.index
          · subst hit
            exact patch_at_clean exports t (hshape t (by simp)) m' hm'
          · rw [applyPatch_getElem?_ne exports t j hit] at hm'
            refine hclean j ?_ m' hm'
            intro t'' ht''
            rcases List.mem_cons.mp ht'' with rfl | h''
            · exact fun hh => hit hh.symm
            · exact hj t'' h''
      have hm' : (applyPatches ts (applyPatch exports t))[i]? = some m := by
        simpa [applyPatches, List.foldl_cons] using hm
      exact ih (applyPatch exports t) hstep i m hm'

theorem singularImportMember_any (p : Expr → Bool)
    (hmem : ∀ c o a b, p (.member c o a b) = false) (v : Expr)
    (hv : anyExpr p v = false) : anyExpr p (singularImportMember v) = false := by
  cases v with
  | member c o obj pr =>
      cases obj with
      | member c3 o3 inObj inPr =>
          simp only [anyExpr, hmem, Bool.false_or, Bool.or_eq_false_iff] at hv
          simp [singularImportMember, anyExpr, hmem, hv.1.1, hv.2]
      | identifier nn => simpa [singularImportMember] using hv
      | literal vv => simpa [singularImportMember] using hv
      | call oo ff aa => simpa [singularImportMember] using hv
      | importExpr ss oo => simpa [singularImportMember] using hv
      | metaProperty mm pp => simpa [singularImportMember] using hv
      | objectExpr mm => simpa [singularImportMember] using hv
      | arrayExpr ee => simpa [singularImportMember] using hv
      | awaitExpr aa => simpa [singularImportMember] using hv
      | arrow ex ps bb => simpa [singularImportMember] using hv
  | identifier nn => simpa [singularImportMember] using hv
  | literal vv => simpa [singularImportMember] using hv
  | call oo ff aa => simpa [singularImportMember] using hv
  | importExpr ss oo => simpa [singularImportMember] using hv
  | metaProperty mm pp => simpa [singularImportMember] using hv
  | objectExpr mm => simpa [singularImportMember] using hv
  | arrayExpr ee => simpa [singularImportMember] using hv
  | awaitExpr aa => simpa [singularImportMember] using hv
  | arrow ex ps bb => simpa [singularImportMember] using hv

theorem entry_value_member_id (p : Expr → Bool) (hid : ∀ n, p (.identifier n) = false)
    (m : OMember) (hm : entryAnyE p m = false) :
    entryAnyE p (singularImportEntry m) = false := by
  cases m with
  | prop c me sh k v =>
      cases v with
      | member c2 o2 obj pr =>
          cases obj with
          | identifier nn =>
              simp only [entryAnyE, anyExpr, Bool.or_eq_false_iff] at hm
              simp [singularImportEntry, entryAnyE, anyExpr, hid, hm.1]
          | member c3 o3 a b => simpa [singularImportEntry] using hm
          | literal vv => simpa [singularImportEntry] using hm
          | call oo ff aa => simpa [singularImportEntry] using hm
          | importExpr ss oo => simpa [singularImportEntry] using hm
          | metaProperty mm pp => simpa [singularImportEntry] using hm
          | objectExpr mm => simpa [singularImportEntry] using hm
          | arrayExpr ee => simpa [singularImportEntry] using hm
          | awaitExpr aa => simpa [singularImportEntry] using hm
          | arrow ex ps bb => simpa [singularImportEntry] using hm
      | identifier nn => simpa [singularImportEntry] using hm
      | literal vv => simpa [singularImportEntry] using hm
      | call oo ff aa => simpa [singularImportEntry] using hm
      | importExpr ss oo => simpa [singularImportEntry] using hm
      | metaProperty mm pp => simpa [singularImportEntry] using hm
      | objectExpr mm => simpa [singularImportEntry] using hm
      | arrayExpr ee => simpa [singularImportEntry] using hm
      | awaitExpr aa => simpa [singularImportEntry] using hm
      | arrow ex ps bb => simpa [singularImportEntry] using hm
  | spread a =>
      cases a with
      | member c2 o2 obj pr =>
          cases obj with
          | identifier nn => simp [singularImportEntry, entryAnyE, anyExpr, hid]
          | member c3 o3 x y => simpa [singularImportEntry] using hm
          | literal vv => simpa [singularImportEntry] using hm
          | call oo ff aa => simpa [singularImportEntry] using hm
          | importExpr ss oo => simpa [singularImportEntry] using hm
          | metaProperty mm pp => simpa [singularImportEntry] using hm
          | objectExpr mm => simpa [singularImportEntry] using hm
          | arrayExpr ee => simpa [singularImportEntry] using hm
          | awaitExpr aa => simpa [singularImportEntry] using hm
          | arrow ex ps bb => simpa [singularImportEntry] using hm
      | identifier nn => simpa [singularImportEntry] using hm
      | literal vv => simpa [singularImportEntry] using hm
      | call oo ff aa => simpa [singularImportEntry] using hm
      | importExpr ss oo => simpa [singularImportEntry] using hm
      | metaProperty mm pp => simpa [singularImportEntry] using hm
      | objectExpr mm => simpa [singularImportEntry] using hm
      | arrayExpr ee => simpa [singularImportEntry] using hm
      | awaitExpr aa => simpa [singularImportEntry] using hm
      | arrow ex ps bb => simpa [singularImportEntry] using hm

theorem modifyAt_forall (P : α → Prop) (l : List α) (i : Nat) (f : α → α)
    (hl : ∀ x ∈ l, P x) (hf : ∀ x ∈ l, P (f x)) : ∀ x ∈ modifyAt l i f, P x := by
  induction l generalizing i with
  | nil => simp [modifyAt]
  | cons a rest ih =>
      cases i with
      | zero =>
          intro x hx
          rcases List.mem_cons.mp hx with rfl | hx
          · exact hf a (by simp)
          · exact hl x (by simp [hx])
      | succ j =>
          intro x hx
          simp only [modifyAt] at hx
          rcases List.mem_cons.mp hx with rfl | hx
          · exact hl x (by simp)
          · exact ih j (fun y hy => hl y (by simp [hy]))
              (fun y hy => hf y (by simp [hy])) x hx

theorem applyPatches_noMeta (targets : List PatchTarget) :
    ∀ exports, (∀ m ∈ exports, entryAnyE isImportMetaE m = false) →
      ∀ m ∈ applyPatches targets exports, entryAnyE isImportMetaE m = false := by
  induction targets with
  | nil => intro exports h; simpa [applyPatches] using h
  | cons t ts ih =>
      intro exports h
      have hstep : ∀ m ∈ applyPatch exports t, entryAnyE isImportMetaE m = false := by
        cases t with
        | memberValue i =>
            refine modifyAt_forall _ exports i _ h ?_
            intro x hx
            cases x with
            | prop c me sh k v =>
                have := h _ hx
                simp only [entryAnyE, Bool.or_eq_false_iff] at this ⊢
                exact ⟨this.1, singularImportMember_any _ (by intro c o a b; rfl) v this.2⟩
            | spread a => exact h _ hx
        | wholeNode i =>
            refine modifyAt_forall _ exports i _ h ?_
            intro x hx
            exact entry_value_member_id _ (by intro n; rfl) x (h _ hx)
      intro m hm
      exact ih (applyPatch exports t) hstep m (by simpa [applyPatches] using hm)

/-! ## Lemmas about the constructed expressions -/

theorem idlit_any (p : Expr → Bool) (hid : ∀ n, p (.identifier n) = false)
    (hlit : ∀ v, p (.literal v) = false) (x : IdLit) : anyExpr p x.toExpr = false := by
  cases x <;> simp [IdLit.toExpr, anyExpr, hid, hlit]

theorem attrProps_any (p : Expr → Bool) (hid : ∀ n, p (.identifier n) = false)
    (hlit : ∀ v, p (.literal v) = false) (attrs : List ImportAttribute) :
    anyOMemberList p (attrs.map fun a =>
      OMember.prop false false false a.key.toExpr (.literal a.value)) = false := by
  induction attrs with
  | nil => simp [anyOMemberList]
  | cons a rest ih =>
      simp only [List.map_cons, anyOMemberList]
      simp [idlit_any p hid hlit a.key, anyExpr, hlit, ih]

theorem convertImportAttributes_any (p : Expr → Bool)
    (hid : ∀ n, p (.identifier n) = false) (hlit : ∀ v, p (.literal v) = false)
    (hobj : ∀ ms, p (.objectExpr ms) = false) (attrs : List ImportAttribute) :
    anyExpr p (convertImportAttributes attrs) = false := by
  have h := attrProps_any p hid hlit attrs
  simp only [convertImportAttributes, anyExpr, anyOMemberList]
  simp [anyExpr, hid, hobj, h]

theorem esm_shape_some (src : JSValue) (attrs : List ImportAttribute) (nm : String) :
    ∃ args, esmDeclarationToExpression src attrs (some nm) =
      .call false (.identifier nm) (.literal src :: args) := ⟨_, rfl⟩

theorem esm_shape_none (src : JSValue) (attrs : List ImportAttribute) :
    ∃ o, esmDeclarationToExpression src attrs none = .importExpr (.literal src) o :=
  ⟨_, rfl⟩

theorem esm_any_some (p : Expr → Bool) (hid : ∀ n, p (.identifier n) = false)
    (hlit : ∀ v, p (.literal v) = false) (hobj : ∀ ms, p (.objectExpr ms) = false)
    (hcall : ∀ o n args, p (.call o (.identifier n) args) = false)
    (src : JSValue) (attrs : List ImportAttribute) (nm : String) :
    anyExpr p (esmDeclarationToExpression src attrs (some nm)) = false := by
  have hconv := convertImportAttributes_any p hid hlit hobj attrs
  cases attrs with
  | nil => simp [esmDeclarationToExpression, anyExpr, anyExprList, hid, hlit, hcall]
  | cons a rest =>
      simp [esmDeclarationToExpression, anyExpr, anyExprList, anyOMemberList,
        hid, hlit, hobj, hcall, hconv, idlit_any p hid hlit,
        attrProps_any p hid hlit]

theorem esm_any_none (p : Expr → Bool) (hid : ∀ n, p (.identifier n) = false)
    (hlit : ∀ v, p (.literal v) = false) (hobj : ∀ ms, p (.objectExpr ms) = false)
    (himp : ∀ s o, p (.importExpr s o) = false)
    (src : JSValue) (attrs : List ImportAttribute) :
    anyExpr p (esmDeclarationToExpression src attrs none) = false := by
  have hconv := convertImportAttributes_any p hid hlit hobj attrs
  cases attrs with
  | nil => simp [esmDeclarationToExpression, anyExpr, anyOptExpr, hlit, himp]
  | cons a rest =>
      simp [esmDeclarationToExpression, anyExpr, anyOptExpr, anyOMemberList,
        hid, hlit, hobj, himp, hconv, idlit_any p hid hlit,
        attrProps_any p hid hlit]

theorem esm_noPA (src : JSValue) (attrs : List ImportAttribute) (name : Option String) :
    anyExpr isPACall (esmDeclarationToExpression src attrs name) = false := by
  cases name with
  | some nm => refine esm_any_some isPACall ?_ ?_ ?_ ?_ src attrs nm <;> intros <;> rfl
  | none => refine esm_any_none isPACall ?_ ?_ ?_ ?_ src attrs <;> intros <;> rfl

theorem esm_noMeta (src : JSValue) (attrs : List ImportAttribute) (nm : String) :
    anyExpr isImportMetaE (esmDeclarationToExpression src attrs (some nm)) = false := by
  refine esm_any_some isImportMetaE ?_ ?_ ?_ ?_ src attrs nm <;> intros <;> rfl

theorem stripEsm_noPA (src : JSValue) (attrs : List ImportAttribute)
    (name : Option String) :
    anyExpr isPACall (stripDefaultThen (esmDeclarationToExpression src attrs name)) =
      false := by
  have he := esm_noPA src attrs name
  cases name with
  | some nm =>
      obtain ⟨args, hesm⟩ := esm_shape_some src attrs nm
      rw [hesm] at he ⊢
      simp only [anyExpr, anyExprList, isPACall, Bool.or_eq_false_iff] at he
      simp [stripDefaultThen, anyExpr, anyExprList, isPACall, he.2.2]
  | none =>
      obtain ⟨o, hesm⟩ := esm_shape_none src attrs
      rw [hesm] at he ⊢
      simp only [anyExpr, isPACall, Bool.or_eq_false_iff] at he
      simp [stripDefaultThen, anyExpr, anyExprList, isPACall, he.2]

theorem stripEsm_noMeta (src : JSValue) (attrs : List ImportAttribute) (nm : String) :
    anyExpr isImportMetaE
      (stripDefaultThen (esmDeclarationToExpression src attrs (some nm))) = false := by
  have he := esm_noMeta src attrs nm
  obtain ⟨args, hesm⟩ := esm_shape_some src attrs nm
  rw [hesm] at he ⊢
  simp only [anyExpr, anyExprList, isImportMetaE, Bool.or_eq_false_iff] at he
  simp [stripDefaultThen, anyExpr, anyExprList, isImportMetaE, he.2.2]

theorem createProperty_any (p : Expr → Bool) (hlit : ∀ v, p (.literal v) = false)
    (k v : Expr) (hk : anyExpr p k = false) (hv : anyExpr p v = false) :
    entryAnyE p (createProperty k v) = false := by
  cases k with
  | identifier n =>
      rcases eq_or_ne n "__proto__" with h | h
      · subst h; simp [createProperty, entryAnyE, anyExpr, hlit, hv]
      · simp [createProperty, entryAnyE, h, hk, hv]
  | literal w => simp [createProperty, entryAnyE, hk, hv]
  | member a b c d => simp [createProperty, entryAnyE, hk, hv]
  | call a b c => simp [createProperty, entryAnyE, hk, hv]
  | importExpr a b => simp [createProperty, entryAnyE, hk, hv]
  | metaProperty a b => simp [createProperty, entryAnyE, hk, hv]
  | objectExpr a => simp [createProperty, entryAnyE, hk, hv]
  | arrayExpr a => simp [createProperty, entryAnyE, hk, hv]
  | awaitExpr a => simp [createProperty, entryAnyE, hk, hv]
  | arrow a b c => simp [createProperty, entryAnyE, hk, hv]

theorem createProperty_prop (k v : Expr) (hk : anyExpr isImportsIdx k = false) :
    ∃ c sh k', createProperty k v = .prop c false sh k' v ∧
      anyExpr isImportsIdx k' = false := by
  cases k with
  | identifier n =>
      refine ⟨_, _, _, rfl, ?_⟩
      cases hn : (n == "__proto__") <;> simp [hn, anyExpr, isImportsIdx]
  | literal w => exact ⟨_, _, _, rfl, hk⟩
  | member a b c d => exact ⟨_, _, _, rfl, hk⟩
  | call a b c => exact ⟨_, _, _, rfl, hk⟩
  | importExpr a b => exact ⟨_, _, _, rfl, hk⟩
  | metaProperty a b => exact ⟨_, _, _, rfl, hk⟩
  | objectExpr a => exact ⟨_, _, _, rfl, hk⟩
  | arrayExpr a => exact ⟨_, _, _, rfl, hk⟩
  | awaitExpr a => exact ⟨_, _, _, rfl, hk⟩
  | arrow a b c => exact ⟨_, _, _, rfl, hk⟩

theorem reexpLocal_plain (sp : ExpSpec) (hwf : badName sp.localName = false) :
    plainNameE (reexpLocal sp).toExpr := by
  cases h : sp.localName with
  | ident n =>
      cases hn : (n == "__proto__") <;>
        simp [reexpLocal, IdLit.toExpr, plainNameE, h, hn]
  | lit v =>
      rw [h] at hwf
      cases v with
      | str str => simp [reexpLocal, IdLit.toExpr, plainNameE, h]
      | num nn => simp [badName] at hwf
      | bool bb => simp [badName] at hwf
      | null => simp [badName] at hwf

theorem reexpEntry_target (idx : Int) (sp : ExpSpec) (hwf : badName sp.localName = false) :
    ∃ c sh k c2 p, reexpEntry idx sp = .prop c false sh k
        (.member c2 false
          (.member true false (.identifier "_imports") (.literal (.num idx))) p) ∧
      anyExpr isImportsIdx k = false ∧ plainNameE p := by
  have hk : anyExpr isImportsIdx sp.exported.toExpr = false :=
    idlit_any isImportsIdx (by intro n; rfl) (by intro v; rfl) sp.exported
  obtain ⟨c, sh, k', heq, hk'⟩ := createProperty_prop sp.exported.toExpr (reexpMember idx sp) hk
  refine ⟨c, sh, k', (reexpLocal sp).isLit, (reexpLocal sp).toExpr, ?_, hk',
    reexpLocal_plain sp hwf⟩
  rw [reexpEntry, heq, reexpMember]

theorem reexpEntry_noMeta (idx : Int) (sp : ExpSpec) :
    entryAnyE isImportMetaE (reexpEntry idx sp) = false := by
  refine createProperty_any isImportMetaE (by intro v; rfl) _ _
    (idlit_any isImportMetaE (by intro n; rfl) (by intro v; rfl) sp.exported) ?_
  have h := idlit_any isImportMetaE (by intro n; rfl) (by intro v; rfl) (reexpLocal sp)
  simp [reexpMember, anyExpr, isImportMetaE, h]

theorem range_map_shift (len n : Nat) :
    PatchTarget.memberValue len ::
      (List.range n).map (fun j => PatchTarget.memberValue (len + 1 + j)) =
    (List.range (n + 1)).map (fun j => PatchTarget.memberValue (len + j)) := by
  rw [List.range_succ_eq_map, List.map_cons, List.map_map]
  congr 1
  congr 1
  funext j
  simp only [Function.comp]
  congr 1
  omega

theorem reexportLoop_eq (idx : Int) (specs : List ExpSpec) :
    ∀ st, reexportLoop idx st specs =
      { st with
          exports := st.exports ++ specs.map (reexpEntry idx),
          toPatch := st.toPatch ++
            (List.range specs.length).map
              fun j => PatchTarget.memberValue (st.exports.length + j) } := by
  induction specs with
  | nil =>
      intro st
      cases st
      simp [reexportLoop]
  | cons sp rest ih =>
      intro st
      rw [reexportLoop, ih]
      cases st with
      | mk d ia ie tp ex =>
          simp only [WState.mk.injEq, true_and, and_true, List.append_assoc,
            List.map_cons, List.singleton_append, List.length_append,
            List.length_cons, List.length_nil, List.length_singleton, Nat.zero_add]
          rw [range_map_shift ex.length rest.length]

/-! ## Invariant preservation helpers -/

theorem StInv.append_exports {name : Option String} {st : WState} (h : StInv name st)
    (news : List OMember)
    (hnews : ∀ m ∈ news,
      entryAnyE isImportsIdx m = false ∧ entryAnyE isImportMetaE m = false) :
    StInv name { st with exports := st.exports ++ news } := by
  refine ⟨h.directive_shape, h.ops_noPA, h.ops_noMeta, ?_, h.targets_sorted, ?_, ?_, ?_⟩
  · intro m hm
    rcases List.mem_append.mp hm with hm | hm
    · exact h.exports_noMeta m hm
    · exact (hnews m hm).2
  · intro t ht
    calc t.index < st.exports.length := h.targets_bound t ht
    _ ≤ (st.exports ++ news).length := by simp
  · intro t ht
    refine targetShape_congr st.exports _ t ?_ (h.targets_shape t ht)
    exact List.getElem?_append_left (h.targets_bound t ht)
  · intro i hi m hm
    by_cases hlt : i < st.exports.length
    · rw [List.getElem?_append_left hlt] at hm
      exact h.untargeted_clean i hi m hm
    · rw [List.getElem?_append_right (Nat.le_of_not_lt hlt)] at hm
      obtain ⟨hlen, hget⟩ := List.getElem?_eq_some.mp hm
      exact (hnews m (hget ▸ List.getElem_mem hlen)).1

theorem StInv.append_op {name : Option String} {st : WState} (h : StInv name st)
    (a : Option Pat) (op : Expr) (hPA : anyExpr isPACall op = false)
    (hMeta : ∀ nm, name = some nm → anyExpr isImportMetaE op = false) :
    StInv name { st with
      importAssignments := st.importAssignments ++ [a],
      importExpressions := st.importExpressions ++ [op] } := by
  refine ⟨h.directive_shape, ?_, ?_, h.exports_noMeta, h.targets_sorted,
    h.targets_bound, h.targets_shape, h.untargeted_clean⟩
  · intro e he
    rcases List.mem_append.mp he with he | he
    · exact h.ops_noPA e he
    · rw [List.mem_singleton.mp he]; exact hPA
  · intro nm hnm e he
    rcases List.mem_append.mp he with he | he
    · exact h.ops_noMeta nm hnm e he
    · rw [List.mem_singleton.mp he]; exact hMeta nm hnm

theorem exportEntry_idid_ok (a b : String) :
    entryAnyE isImportsIdx (createProperty (.identifier a) (.identifier b)) = false ∧
    entryAnyE isImportMetaE (createProperty (.identifier a) (.identifier b)) = false :=
  ⟨createProperty_any isImportsIdx (fun _ => rfl) _ _ rfl rfl,
   createProperty_any isImportMetaE (fun _ => rfl) _ _ rfl rfl⟩

theorem extractExportNames_ok (d : Decl) :
    ∀ m ∈ extractExportNames d,
      entryAnyE isImportsIdx m = false ∧ entryAnyE isImportMetaE m = false := by
  cases d with
  | varD kind ds =>
      intro m hm
      simp only [extractExportNames, List.mem_flatMap, List.mem_map] at hm
      obtain ⟨dtor, _, nm2, _, rfl⟩ := hm
      exact exportEntry_idid_ok nm2 nm2
  | funcD id params body =>
      intro m hm
      rw [extractExportNames, List.mem_singleton] at hm
      subst hm
      exact exportEntry_idid_ok id id
  | classD id =>
      intro m hm
      rw [extractExportNames, List.mem_singleton] at hm
      subst hm
      exact exportEntry_idid_ok id id

theorem specEntry_ok (sp : ExpSpec) :
    entryAnyE isImportsIdx (createProperty sp.exported.toExpr sp.localName.toExpr) = false ∧
    entryAnyE isImportMetaE (createProperty sp.exported.toExpr sp.localName.toExpr) = false :=
  ⟨createProperty_any isImportsIdx (fun _ => rfl) _ _
      (idlit_any isImportsIdx (fun _ => rfl) (fun _ => rfl) sp.exported)
      (idlit_any isImportsIdx (fun _ => rfl) (fun _ => rfl) sp.localName),
   createProperty_any isImportMetaE (fun _ => rfl) _ _
      (idlit_any isImportMetaE (fun _ => rfl) (fun _ => rfl) sp.exported)
      (idlit_any isImportMetaE (fun _ => rfl) (fun _ => rfl) sp.localName)⟩

theorem dtorsAny_of_false (q : Expr → Bool) (hq : ∀ e, q e = false)
    (ds : List VarDtor) : dtorsAny q ds = false := by
  rw [dtorsAny, List.any_eq_false]
  intro d _
  simp [anyOptExpr_of_false q hq d.init]

theorem walkDtors_noMeta (nm : String) (ds : List VarDtor) :
    dtorsAny isImportMetaE (walkDtors (some nm) ds) = false := by
  induction ds with
  | nil => simp [walkDtors, dtorsAny]
  | cons d rest ih =>
      obtain ⟨did, dinit⟩ := d
      simp only [walkDtors]
      rw [dtorsAny, List.any_eq_false] at ih ⊢
      intro x hx
      rcases List.mem_cons.mp hx with rfl | hx
      · cases dinit with
        | none => simp [anyOptExpr]
        | some e => simpa [anyOptExpr] using walkExpr_noMeta nm e
      · exact ih x hx

theorem walkExpr_not_literal (name : Option String) (e : Expr)
    (he : ∀ v, e ≠ .literal v) : ∀ v, walkExpr name e ≠ .literal v := by
  cases e with
  | literal v => exact absurd rfl (he v)
  | identifier n => intro v h; rw [walkExpr] at h; cases h
  | member a b c d => intro v h; rw [walkExpr] at h; cases h
  | call a b c => intro v h; rw [walkExpr] at h; cases h
  | importExpr a b =>
      intro v h
      cases name <;> cases b <;> (simp only [walkExpr] at h; cases h)
  | metaProperty a b =>
      intro v h
      cases name <;> (simp only [walkExpr] at h; cases h)
  | objectExpr a => intro v h; rw [walkExpr] at h; cases h
  | arrayExpr a => intro v h; rw [walkExpr] at h; cases h
  | awaitExpr a => intro v h; rw [walkExpr] at h; cases h
  | arrow a b c => intro v h; rw [walkExpr] at h; cases h

theorem isUseStrictS_of_not_literal (x : Expr) (hx : ∀ v, x ≠ .literal v) :
    isUseStrictS (.exprStmt x) = false := by
  cases x with
  | literal v => exact absurd rfl (hx v)
  | identifier n => rfl
  | member a b c d => rfl
  | call a b c => rfl
  | importExpr a b => rfl
  | metaProperty a b => rfl
  | objectExpr a => rfl
  | arrayExpr a => rfl
  | awaitExpr a => rfl
  | arrow a b c => rfl

theorem StInv.append_block {name : Option String} {st : WState} (h : StInv name st)
    (news : List OMember) (newts : List PatchTarget)
    (hsorted : newts.Pairwise fun a b => a.index < b.index)
    (hrange : ∀ t ∈ newts,
      st.exports.length ≤ t.index ∧ t.index < st.exports.length + news.length)
    (hshape : ∀ t ∈ newts, targetShape (st.exports ++ news) t)
    (hcover : ∀ j, j < news.length → ∃ t ∈ newts, t.index = st.exports.length + j)
    (hmeta : ∀ m ∈ news, entryAnyE isImportMetaE m = false) :
    StInv name { st with
      exports := st.exports ++ news, toPatch := st.toPatch ++ newts } := by
  refine ⟨h.directive_shape, h.ops_noPA, h.ops_noMeta, ?_, ?_, ?_, ?_, ?_⟩
  · intro m hm
    rcases List.mem_append.mp hm with hm | hm
    · exact h.exports_noMeta m hm
    · exact hmeta m hm
  · rw [List.pairwise_append]
    refine ⟨h.targets_sorted, hsorted, ?_⟩
    intro a ha b hb
    calc a.index < st.exports.length := h.targets_bound a ha
    _ ≤ b.index := (hrange b hb).1
  · intro t ht
    rcases List.mem_append.mp ht with ht | ht
    · calc t.index < st.exports.length := h.targets_bound t ht
      _ ≤ (st.exports ++ news).length := by simp
    · simpa using (hrange t ht).2
  · intro t ht
    rcases List.mem_append.mp ht with ht | ht
    · refine targetShape_congr st.exports _ t ?_ (h.targets_shape t ht)
      exact List.getElem?_append_left (h.targets_bound t ht)
    · exact hshape t ht
  · intro i hi m hm
    by_cases hlt : i < st.exports.length
    · rw [List.getElem?_append_left hlt] at hm
      refine h.untargeted_clean i ?_ m hm
      intro t ht
      exact hi t (List.mem_append.mpr (Or.inl ht))
    · by_cases hlt2 : i < st.exports.length + news.length
      · obtain ⟨t, ht, hti⟩ := hcover (i - st.exports.length) (by omega)
        exfalso
        refine hi t (List.mem_append.mpr (Or.inr ht)) ?_
        omega
      · exfalso
        have : (st.exports ++ news).length ≤ i := by simp; omega
        rw [List.getElem?_eq_none this] at hm
        cases hm

/-- The properties of every statement kept in the walked output: it contains
no ESM declaration, no `'use strict'` directive statement, and — when an
identifier name is configured — no `ImportExpression` or `MetaProperty`. -/
def outOK (name : Option String) (s : Stmt) : Prop :=
  stmtNoEsm s ∧ stmtNoUseStrict s ∧ ∀ nm, name = some nm → stmtNoMeta s

theorem outOK_varDecl (name : Option String) (kind : String) (ds : List VarDtor) :
    outOK name (.varDecl kind (walkDtors name ds)) := by
  refine ⟨?_, ?_, ?_⟩
  · simp [stmtNoEsm, stmtAny, isEsmStmt, dtorsAny_of_false _ (fun _ => rfl)]
  · simp [stmtNoUseStrict, stmtAny, isUseStrictS, dtorsAny_of_false _ (fun _ => rfl)]
  · intro nm hnm
    subst hnm
    simp [stmtNoMeta, stmtAny, walkDtors_noMeta nm ds]

theorem outOK_classDecl (name : Option String) (id : String) :
    outOK name (.classDecl id) := by
  refine ⟨?_, ?_, ?_⟩
  · simp [stmtNoEsm, stmtAny, isEsmStmt]
  · simp [stmtNoUseStrict, stmtAny, isUseStrictS]
  · intro nm hnm; simp [stmtNoMeta, stmtAny]

theorem outOK_funcDecl (name : Option String) (id : String) (params : List Pat)
    (body' : List Stmt) (hb : ∀ x ∈ body', outOK name x) :
    outOK name (.funcDecl id params body') := by
  refine ⟨?_, ?_, ?_⟩
  · simp only [stmtNoEsm, stmtAny, isEsmStmt, Bool.false_or]
    exact (stmtListAny_eq_false body').mpr fun x hx => (hb x hx).1
  · simp only [stmtNoUseStrict, stmtAny, isUseStrictS, Bool.false_or]
    exact (stmtListAny_eq_false body').mpr fun x hx => (hb x hx).2.1
  · intro nm hnm
    simp only [stmtNoMeta, stmtAny, Bool.false_or]
    exact (stmtListAny_eq_false body').mpr fun x hx => (hb x hx).2.2 nm hnm

theorem outOK_exprStmt_walk (name : Option String) (e : Expr)
    (he : ∀ v, e ≠ Expr.literal v) : outOK name (.exprStmt (walkExpr name e)) := by
  refine ⟨?_, ?_, ?_⟩
  · simp [stmtNoEsm, stmtAny, isEsmStmt, anyExpr_of_false _ (fun _ => rfl)]
  · simp only [stmtNoUseStrict, stmtAny,
      isUseStrictS_of_not_literal _ (walkExpr_not_literal name e he), Bool.false_or]
    exact anyExpr_of_false _ (fun _ => rfl) _
  · intro nm hnm
    subst hnm
    simp [stmtNoMeta, stmtAny, walkExpr_noMeta nm e]

theorem outOK_exprStmt_lit (name : Option String) (v : JSValue)
    (hv : (v == JSValue.str "use strict") = false) :
    outOK name (.exprStmt (.literal v)) := by
  refine ⟨?_, ?_, ?_⟩
  · simp [stmtNoEsm, stmtAny, isEsmStmt, anyExpr, anyExpr_of_false _ (fun _ => rfl)]
  · simp [stmtNoUseStrict, stmtAny, isUseStrictS, anyExpr, hv]
  · intro nm hnm
    simp [stmtNoMeta, stmtAny, anyExpr, isImportMetaE]

theorem outOK_returnStmt (name : Option String) (a : Option Expr) :
    outOK name (.returnStmt
      (match a with
       | some e => some (walkExpr name e)
       | none => none)) := by
  cases a with
  | none =>
      refine ⟨?_, ?_, fun nm hnm => ?_⟩ <;>
        simp [stmtNoEsm, stmtNoUseStrict, stmtNoMeta, stmtAny, isEsmStmt,
          isUseStrictS, anyOptExpr]
  | some e =>
      refine ⟨?_, ?_, fun nm hnm => ?_⟩
      · simp [stmtNoEsm, stmtAny, isEsmStmt, anyOptExpr,
          anyExpr_of_false _ (fun _ => rfl)]
      · simp [stmtNoUseStrict, stmtAny, isUseStrictS, anyOptExpr,
          anyExpr_of_false _ (fun _ => rfl)]
      · subst hnm
        simp [stmtNoMeta, stmtAny, anyOptExpr, walkExpr_noMeta nm e]

theorem outOK_defaultVar (name : Option String) (e : Expr) :
    outOK name (.varDecl "const"
      [⟨.identifier "__default_export__", some (walkExpr name e)⟩]) := by
  refine ⟨?_, ?_, ?_⟩
  · simp [stmtNoEsm, stmtAny, isEsmStmt, dtorsAny, anyOptExpr,
      anyExpr_of_false _ (fun _ => rfl)]
  · simp [stmtNoUseStrict, stmtAny, isUseStrictS, dtorsAny, anyOptExpr,
      anyExpr_of_false _ (fun _ => rfl)]
  · intro nm hnm
    subst hnm
    simp [stmtNoMeta, stmtAny, dtorsAny, anyOptExpr, walkExpr_noMeta nm e]

/-- The main preservation theorem of the walk: starting from an invariant
state, walking any well-formed statement list preserves the invariant, only
appends to `importExpressions`, and leaves only statements free of ESM
declarations, `'use strict'` directives, and (when an import name is
configured) import expressions and meta properties. -/
theorem walkStmts_spec (name : Option String) (st : WState) (l : List Stmt)
    (hInv : StInv name st) (hwf : wfStmts l) :
    StInv name (walkStmts name st l).1 ∧
    (∃ suf, (walkStmts name st l).1.importExpressions = st.importExpressions ++ suf) ∧
    ∀ s' ∈ (walkStmts name st l).2, outOK name s' := by
  cases l with
  | nil =>
      refine ⟨by simpa [walkStmts] using hInv, ⟨[], by simp [walkStmts]⟩, ?_⟩
      intro x hx
      simp [walkStmts] at hx
  | cons s rest =>
      rw [wfStmts, stmtListAny, Bool.or_eq_false_iff] at hwf
      obtain ⟨hwf1, hwfr⟩ := hwf
      have key : StInv name (walkStmt name st s).1 ∧
          (∃ suf, (walkStmt name st s).1.importExpressions =
            st.importExpressions ++ suf) ∧
          (∀ x, (walkStmt name st s).2 = some x → outOK name x) := by
        cases s with
        | exprStmt e =>
            cases e with
            | literal v =>
                cases hval : (v == JSValue.str "use strict") with
                | true =>
                    have hveq : v = JSValue.str "use strict" := eq_of_beq hval
                    refine ⟨?_, ⟨[], by simp [walkStmt, hval]⟩, ?_⟩
                    · simp only [walkStmt, hval, if_true]
                      refine ⟨?_, hInv.ops_noPA, hInv.ops_noMeta, hInv.exports_noMeta,
                        hInv.targets_sorted, hInv.targets_bound, hInv.targets_shape,
                        hInv.untargeted_clean⟩
                      rcases hInv.directive_shape with hd | hd <;> rw [hd] <;>
                        simp [useStrictStmt, hveq]
                    · intro x hx
                      simp only [walkStmt, hval, if_true] at hx
                      cases hx
                | false =>
                    refine ⟨by simpa [walkStmt, hval] using hInv,
                      ⟨[], by simp [walkStmt, hval]⟩, ?_⟩
                    intro x hx
                    simp only [walkStmt, hval, if_false] at hx
                    injection hx with hx
                    subst hx
                    exact outOK_exprStmt_lit name v hval
            | identifier n =>
                refine ⟨by simpa [walkStmt] using hInv, ⟨[], by simp [walkStmt]⟩, ?_⟩
                intro x hx
                simp only [walkStmt] at hx
                injection hx with hx
                subst hx
                exact outOK_exprStmt_walk name _ (fun v h => Expr.noConfusion h)
            | member a b c d =>
                refine ⟨by simpa [walkStmt] using hInv, ⟨[], by simp [walkStmt]⟩, ?_⟩
                intro x hx
                simp only [walkStmt] at hx
                injection hx with hx
                subst hx
                exact outOK_exprStmt_walk name _ (fun v h => Expr.noConfusion h)
            | call a b c =>
                refine ⟨by simpa [walkStmt] using hInv, ⟨[], by simp [walkStmt]⟩, ?_⟩
                intro x hx
                simp only [walkStmt] at hx
                injection hx with hx
                subst hx
                exact outOK_exprStmt_walk name _ (fun v h => Expr.noConfusion h)
            | importExpr a b =>
                refine ⟨by simpa [walkStmt] using hInv, ⟨[], by simp [walkStmt]⟩, ?_⟩
                intro x hx
                simp only [walkStmt] at hx
                injection hx with hx
                subst hx
                exact outOK_exprStmt_walk name _ (fun v h => Expr.noConfusion h)
            | metaProperty a b =>
                refine ⟨by simpa [walkStmt] using hInv, ⟨[], by simp [walkStmt]⟩, ?_⟩
                intro x hx
                simp only [walkStmt] at hx
                injection hx with hx
                subst hx
                exact outOK_exprStmt_walk name _ (fun v h => Expr.noConfusion h)
            | objectExpr a =>
                refine ⟨by simpa [walkStmt] using hInv, ⟨[], by simp [walkStmt]⟩, ?_⟩
                intro x hx
                simp only [walkStmt] at hx
                injection hx with hx
                subst hx
                exact outOK_exprStmt_walk name _ (fun v h => Expr.noConfusion h)
            | arrayExpr a =>
                refine ⟨by simpa [walkStmt] using hInv, ⟨[], by simp [walkStmt]⟩, ?_⟩
                intro x hx
                simp only [walkStmt] at hx
                injection hx with hx
                subst hx
                exact outOK_exprStmt_walk name _ (fun v h => Expr.noConfusion h)
            | awaitExpr a =>
                refine ⟨by simpa [walkStmt] using hInv, ⟨[], by simp [walkStmt]⟩, ?_⟩
                intro x hx
                simp only [walkStmt] at hx
                injection hx with hx
                subst hx
                exact outOK_exprStmt_walk name _ (fun v h => Expr.noConfusion h)
            | arrow a b c =>
                refine ⟨by simpa [walkStmt] using hInv, ⟨[], by simp [walkStmt]⟩, ?_⟩
                intro x hx
                simp only [walkStmt] at hx
                injection hx with hx
                subst hx
                exact outOK_exprStmt_walk name _ (fun v h => Expr.noConfusion h)
        | varDecl kind ds =>
            refine ⟨by simpa [walkStmt] using hInv, ⟨[], by simp [walkStmt]⟩, ?_⟩
            intro x hx
            simp only [walkStmt] at hx
            injection hx with hx
            subst hx
            exact outOK_varDecl name kind ds
        | funcDecl id params body =>
            have hwfb : wfStmts body := by
              simp only [stmtAny, Bool.or_eq_false_iff] at hwf1
              exact hwf1.2
            rcases hb : walkStmts name st body with ⟨stb, bodyb⟩
            have hrec := walkStmts_spec name st body hInv hwfb
            rw [hb] at hrec
            obtain ⟨hinvb, ⟨sufb, hsufb⟩, houtb⟩ := hrec
            refine ⟨?_, ⟨sufb, ?_⟩, ?_⟩
            · simp only [walkStmt, hb]
              exact hinvb
            · simp only [walkStmt, hb]
              exact hsufb
            · intro x hx
              simp only [walkStmt, hb] at hx
              injection hx with hx
              subst hx
              exact outOK_funcDecl name id params bodyb houtb
        | classDecl id =>
            refine ⟨by simpa [walkStmt] using hInv, ⟨[], by simp [walkStmt]⟩, ?_⟩
            intro x hx
            simp only [walkStmt] at hx
            injection hx with hx
            subst hx
            exact outOK_classDecl name id
        | returnStmt a =>
            refine ⟨by simpa [walkStmt] using hInv, ⟨[], by simp [walkStmt]⟩, ?_⟩
            intro x hx
            simp only [walkStmt] at hx
            injection hx with hx
            subst hx
            exact outOK_returnStmt name a
        | importDecl specs src attrs =>
            refine ⟨?_, ⟨[esmDeclarationToExpression src attrs name],
              by simp [walkStmt]⟩, ?_⟩
            · simp only [walkStmt]
              exact hInv.append_op _ _ (esm_noPA src attrs name)
                (fun nm hnm => by subst hnm; exact esm_noMeta src attrs nm)
            · intro x hx
              simp only [walkStmt] at hx
              cases hx
        | exportDefault d =>
            cases d with
            | fnD id params body =>
                have hwfb : wfStmts body := by
                  simp only [stmtAny, Bool.or_eq_false_iff] at hwf1
                  exact hwf1.2
                have hinvmid : StInv name { st with exports := (st.exports ++ [createProperty (.identifier "default") (.identifier (id.getD "__default_export__"))]) } := by
                  refine hInv.append_exports _ ?_
                  intro m hm
                  rw [List.mem_singleton] at hm
                  subst hm
                  exact exportEntry_idid_ok _ _
                rcases hb : walkStmts name { st with exports := (st.exports ++ [createProperty (.identifier "default") (.identifier (id.getD "__default_export__"))]) } body
                  with ⟨stb, bodyb⟩
                have hrec := walkStmts_spec name _ body hinvmid hwfb
                rw [hb] at hrec
                obtain ⟨hinvb, ⟨sufb, hsufb⟩, houtb⟩ := hrec
                refine ⟨?_, ⟨sufb, ?_⟩, ?_⟩
                · simp only [walkStmt, hb]
                  exact hinvb
                · simp only [walkStmt, hb]
                  exact hsufb
                · intro x hx
                  simp only [walkStmt, hb] at hx
                  injection hx with hx
                  subst hx
                  exact outOK_funcDecl name _ params bodyb houtb
            | clsD id =>
                refine ⟨?_, ⟨[], by simp [walkStmt]⟩, ?_⟩
                · simp only [walkStmt]
                  refine hInv.append_exports _ ?_
                  intro m hm
                  rw [List.mem_singleton] at hm
                  subst hm
                  exact exportEntry_idid_ok _ _
                · intro x hx
                  simp only [walkStmt] at hx
                  injection hx with hx
                  subst hx
                  exact outOK_classDecl name _
            | exprD e =>
                refine ⟨?_, ⟨[], by simp [walkStmt]⟩, ?_⟩
                · simp only [walkStmt]
                  refine hInv.append_exports _ ?_
                  intro m hm
                  rw [List.mem_singleton] at hm
                  subst hm
                  exact exportEntry_idid_ok _ _
                · intro x hx
                  simp only [walkStmt] at hx
                  injection hx with hx
                  subst hx
                  exact outOK_defaultVar name e
        | exportNamed d specs src attrs =>
            cases d with
            | some dd =>
                cases dd with
                | varD kind ds =>
                    refine ⟨?_, ⟨[], by simp [walkStmt]⟩, ?_⟩
                    · simp only [walkStmt]
                      exact hInv.append_exports _ (extractExportNames_ok _)
                    · intro x hx
                      simp only [walkStmt] at hx
                      injection hx with hx
                      subst hx
                      exact outOK_varDecl name kind ds
                | funcD id params body =>
                    have hwfb : wfStmts body := by
                      simp only [stmtAny, Bool.or_eq_false_iff] at hwf1
                      exact hwf1.2
                    have hinvmid : StInv name { st with exports := (st.exports ++ extractExportNames (Decl.funcD id params body)) } :=
                      hInv.append_exports _ (extractExportNames_ok _)
                    rcases hb : walkStmts name { st with exports := (st.exports ++ extractExportNames (Decl.funcD id params body)) } body
                      with ⟨stb, bodyb⟩
                    have hrec := walkStmts_spec name _ body hinvmid hwfb
                    rw [hb] at hrec
                    obtain ⟨hinvb, ⟨sufb, hsufb⟩, houtb⟩ := hrec
                    refine ⟨?_, ⟨sufb, ?_⟩, ?_⟩
                    · simp only [walkStmt, hb]
                      exact hinvb
                    · simp only [walkStmt, hb]
                      exact hsufb
                    · intro x hx
                      simp only [walkStmt, hb] at hx
                      injection hx with hx
                      subst hx
                      exact outOK_funcDecl name id params bodyb houtb
                | classD id =>
                    refine ⟨?_, ⟨[], by simp [walkStmt]⟩, ?_⟩
                    · simp only [walkStmt]
                      exact hInv.append_exports _ (extractExportNames_ok _)
                    · intro x hx
                      simp only [walkStmt] at hx
                      injection hx with hx
                      subst hx
                      exact outOK_classDecl name id
            | none =>
                cases src with
                | none =>
                    refine ⟨?_, ⟨[], by simp [walkStmt]⟩, ?_⟩
                    · simp only [walkStmt]
                      refine hInv.append_exports _ ?_
                      intro m hm
                      rw [List.mem_map] at hm
                      obtain ⟨sp, _, rfl⟩ := hm
                      exact specEntry_ok sp
                    · intro x hx
                      simp only [walkStmt] at hx
                      cases hx
                | some srcv =>
                    have hwfspecs : ∀ sp ∈ specs, badName sp.localName = false := by
                      simp only [stmtAny, hasBadSpecifier, Bool.or_eq_false_iff] at hwf1
                      rw [List.any_eq_false] at hwf1
                      intro sp hsp
                      simpa using hwf1.1 sp hsp
                    have hloop := reexportLoop_eq
                      ((st.importExpressions.length : Int)) specs st
                    have hinvloop : StInv name
                        (reexportLoop ((st.importExpressions.length : Int)) st specs) := by
                      rw [hloop]
                      refine hInv.append_block _ _ ?_ ?_ ?_ ?_ ?_
                      · exact List.Pairwise.map _
                          (fun a b hab => by simp only [PatchTarget.index]; omega)
                          (List.pairwise_lt_range specs.length)
                      · intro t ht
                        rw [List.mem_map] at ht
                        obtain ⟨j, hj, rfl⟩ := ht
                        rw [List.mem_range] at hj
                        simp only [PatchTarget.index, List.length_map]
                        omega
                      · intro t ht
                        rw [List.mem_map] at ht
                        obtain ⟨j, hj, rfl⟩ := ht
                        rw [List.mem_range] at hj
                        have hget : (st.exports ++
                            specs.map (reexpEntry ((st.importExpressions.length : Int))))[
                              st.exports.length + j]? =
                            some (reexpEntry ((st.importExpressions.length : Int))
                              (specs.get ⟨j, hj⟩)) := by
                          rw [List.getElem?_append_right (by omega)]
                          simp [List.getElem?_map, List.getElem?_eq_getElem hj]
                        obtain ⟨c, sh, k, c2, p, heq, hk, hp⟩ :=
                          reexpEntry_target ((st.importExpressions.length : Int))
                            (specs.get ⟨j, hj⟩)
                            (hwfspecs _ (specs.get_mem j hj))
                        exact ⟨c, sh, k, c2, false, p, (st.importExpressions.length : Int),
                          by rw [hget, heq], hk, hp⟩
                      · intro j hj
                        rw [List.length_map] at hj
                        refine ⟨.memberValue (st.exports.length + j), ?_, rfl⟩
                        rw [List.mem_map]
                        exact ⟨j, List.mem_range.mpr hj, rfl⟩
                      · intro m hm
                        rw [List.mem_map] at hm
                        obtain ⟨sp, _, rfl⟩ := hm
                        exact reexpEntry_noMeta _ sp
                    refine ⟨?_, ⟨[esmDeclarationToExpression srcv attrs name], ?_⟩, ?_⟩
                    · simp only [walkStmt]
                      exact hinvloop.append_op _ _ (esm_noPA srcv attrs name)
                        (fun nm hnm => by subst hnm; exact esm_noMeta srcv attrs nm)
                    · simp only [walkStmt]
                      have : (reexportLoop ((st.importExpressions.length : Int))
                          st specs).importExpressions = st.importExpressions := by
                        rw [hloop]
                      rw [this]
                    · intro x hx
                      simp only [walkStmt] at hx
                      cases hx
        | exportAll exported src attrs =>
            cases exported with
            | some ex =>
                have hmem0 : anyExpr isImportsIdx ex.toExpr = false :=
                  idlit_any isImportsIdx (fun _ => rfl) (fun _ => rfl) ex
                obtain ⟨c, sh, k', heq, hk'⟩ := createProperty_prop ex.toExpr
                  (.member true false (.identifier "_imports")
                    (.literal (.num (st.importExpressions.length : Int)))) hmem0
                refine ⟨?_, ⟨[esmDeclarationToExpression src attrs name],
                  by simp [walkStmt]⟩, ?_⟩
                · simp only [walkStmt]
                  refine (hInv.append_block _ _ ?_ ?_ ?_ ?_ ?_).append_op _ _
                    (esm_noPA src attrs name)
                    (fun nm hnm => by subst hnm; exact esm_noMeta src attrs nm)
                  · exact List.pairwise_singleton _ _
                  · intro t ht
                    rw [List.mem_singleton] at ht
                    subst ht
                    simp [PatchTarget.index]
                  · intro t ht
                    rw [List.mem_singleton] at ht
                    subst ht
                    refine Or.inl ⟨c, sh, k', (st.importExpressions.length : Int), ?_, hk'⟩
                    rw [List.getElem?_concat_length, heq]
                  · intro j hj
                    rw [List.length_singleton] at hj
                    interval_cases j
                    exact ⟨.wholeNode st.exports.length, List.mem_singleton.mpr rfl,
                      by simp [PatchTarget.index]⟩
                  · intro m hm
                    rw [List.mem_singleton] at hm
                    subst hm
                    refine createProperty_any isImportMetaE (fun _ => rfl) _ _
                      (idlit_any isImportMetaE (fun _ => rfl) (fun _ => rfl) ex) ?_
                    simp [anyExpr, isImportMetaE]
                · intro x hx
                  simp only [walkStmt] at hx
                  cases hx
            | none =>
                refine ⟨?_, ⟨[stripDefaultThen (esmDeclarationToExpression src attrs name)],
                  by simp [walkStmt]⟩, ?_⟩
                · simp only [walkStmt]
                  refine (hInv.append_block _ _ ?_ ?_ ?_ ?_ ?_).append_op _ _
                    (stripEsm_noPA src attrs name) ?_
                  · exact List.pairwise_singleton _ _
                  · intro t ht
                    rw [List.mem_singleton] at ht
                    subst ht
                    simp [PatchTarget.index]
                  · intro t ht
                    rw [List.mem_singleton] at ht
                    subst ht
                    refine Or.inr ⟨(st.importExpressions.length : Int), ?_⟩
                    rw [List.getElem?_concat_length]
                  · intro j hj
                    rw [List.length_singleton] at hj
                    interval_cases j
                    exact ⟨.wholeNode st.exports.length, List.mem_singleton.mpr rfl,
                      by simp [PatchTarget.index]⟩
                  · intro m hm
                    rw [List.mem_singleton] at hm
                    subst hm
                    simp [entryAnyE, anyExpr, isImportMetaE]
                  · intro nm hnm
                    subst hnm
                    exact stripEsm_noMeta src attrs nm
                · intro x hx
                  simp only [walkStmt] at hx
                  cases hx
      rcases hq : walkStmt name st s with ⟨st1, s1⟩
      rw [hq] at key
      obtain ⟨hinv1, ⟨suf1, hsuf1⟩, hout1⟩ := key
      replace hinv1 : StInv name st1 := hinv1
      replace hsuf1 : st1.importExpressions = st.importExpressions ++ suf1 := hsuf1
      replace hout1 : ∀ x, s1 = some x → outOK name x := hout1
      have hrec := walkStmts_spec name st1 rest hinv1 hwfr
      rcases hr : walkStmts name st1 rest with ⟨st2, rest2⟩
      rw [hr] at hrec
      obtain ⟨hinv2, ⟨suf2, hsuf2⟩, hout2⟩ := hrec
      replace hinv2 : StInv name st2 := hinv2
      replace hsuf2 : st2.importExpressions = st1.importExpressions ++ suf2 := hsuf2
      replace hout2 : ∀ s' ∈ rest2, outOK name s' := hout2
      cases s1 with
      | some y =>
          have hres : walkStmts name st (s :: rest) = (st2, y :: rest2) := by
            simp only [walkStmts, hq, hr]
          rw [hres]
          refine ⟨hinv2, ⟨suf1 ++ suf2, ?_⟩, ?_⟩
          · show st2.importExpressions = st.importExpressions ++ (suf1 ++ suf2)
            rw [hsuf2, hsuf1, List.append_assoc]
          · intro x hx
            rcases List.mem_cons.mp hx with rfl | hx
            · exact hout1 x rfl
            · exact hout2 x hx
      | none =>
          have hres : walkStmts name st (s :: rest) = (st2, rest2) := by
            simp only [walkStmts, hq, hr]
          rw [hres]
          refine ⟨hinv2, ⟨suf1 ++ suf2, ?_⟩, hout2⟩
          show st2.importExpressions = st.importExpressions ++ (suf1 ++ suf2)
          rw [hsuf2, hsuf1, List.append_assoc]
termination_by sizeOf l

/-! ## Finalization lemmas -/

theorem anyOMemberList_eq_false {p : Expr → Bool} (l : List OMember) :
    anyOMemberList p l = false ↔ ∀ m ∈ l, entryAnyE p m = false := by
  induction l with
  | nil => simp [anyOMemberList]
  | cons m rest ih =>
      cases m with
      | prop c me sh k v =>
          simp [anyOMemberList, entryAnyE, ih, Bool.or_eq_false_iff, and_assoc]
      | spread a => simp [anyOMemberList, entryAnyE, ih, Bool.or_eq_false_iff]

/-- The await argument of the prologue statement, when there is one. -/
def awaitedImport : Stmt → Option Expr
  | .varDecl _ (⟨_, some (.awaitExpr a)⟩ :: _) => some a
  | .exprStmt (.awaitExpr a) => some a
  | _ => none

theorem mkPrologue_await (st : WState) :
    awaitedImport (mkPrologue st) = some (prologueImportExpression st) := by
  rw [mkPrologue]
  split
  · rfl
  · rcases prologueImportAssignment st with _ | pp <;> rfl

theorem directive_getD (st : WState) {name : Option String} (h : StInv name st) :
    st.directive.getD useStrictStmt = useStrictStmt := by
  rcases h.directive_shape with hd | hd <;> rw [hd] <;> rfl

theorem useStrict_noEsm : stmtNoEsm useStrictStmt := by
  simp [useStrictStmt, stmtNoEsm, stmtAny, isEsmStmt, anyExpr]

theorem useStrict_noMeta : stmtNoMeta useStrictStmt := by
  simp [useStrictStmt, stmtNoMeta, stmtAny, anyExpr, isImportMetaE]

theorem mkPrologue_noEsm (st : WState) : stmtNoEsm (mkPrologue st) := by
  rw [mkPrologue]
  split
  · simp [stmtNoEsm, stmtAny, isEsmStmt, dtorsAny_of_false _ (fun _ => rfl)]
  · rcases prologueImportAssignment st with _ | pp <;>
      simp [stmtNoEsm, stmtAny, isEsmStmt, dtorsAny_of_false _ (fun _ => rfl),
        anyExpr_of_false _ (fun _ => rfl)]

theorem mkPrologue_noUseStrict (st : WState) : stmtNoUseStrict (mkPrologue st) := by
  rw [mkPrologue]
  split
  · simp [stmtNoUseStrict, stmtAny, isUseStrictS, dtorsAny_of_false _ (fun _ => rfl)]
  · rcases prologueImportAssignment st with _ | pp <;>
      simp [stmtNoUseStrict, stmtAny, isUseStrictS, dtorsAny_of_false _ (fun _ => rfl),
        anyExpr_of_false _ (fun _ => rfl)]

theorem prologueImportExpression_noMeta (st : WState)
    (h : ∀ e ∈ st.importExpressions, anyExpr isImportMetaE e = false) :
    anyExpr isImportMetaE (prologueImportExpression st) = false := by
  rw [prologueImportExpression]
  split
  · cases hops : st.importExpressions with
    | nil => simp [List.headD, anyExpr, isImportMetaE]
    | cons e restl =>
        have := h e (by rw [hops]; exact List.mem_cons_self e restl)
        simpa [List.headD] using this
  · simp [promiseAllExpr, anyExpr, anyExprList, isImportMetaE,
      anyOptExprList_map_some, (anyExprList_eq_false _).mpr h]

theorem prologueImportExpression_noPA_single (st : WState)
    (hlen : st.importExpressions.length = 1)
    (h : ∀ e ∈ st.importExpressions, anyExpr isPACall e = false) :
    anyExpr isPACall (prologueImportExpression st) = false := by
  rw [prologueImportExpression, if_pos (by simp [hlen])]
  cases hops : st.importExpressions with
  | nil => simp [List.headD, anyExpr, isPACall]
  | cons e restl =>
      have := h e (by rw [hops]; exact List.mem_cons_self e restl)
      simpa [List.headD] using this

theorem mkPrologue_noMeta (st : WState)
    (h : ∀ e ∈ st.importExpressions, anyExpr isImportMetaE e = false) :
    stmtNoMeta (mkPrologue st) := by
  have hpe := prologueImportExpression_noMeta st h
  rw [mkPrologue]
  split
  · rcases prologueImportAssignment st with _ | pp <;>
      simp [stmtNoMeta, stmtAny, dtorsAny, anyOptExpr, anyExpr, isImportMetaE, hpe]
  · rcases prologueImportAssignment st with _ | pp <;>
      simp [stmtNoMeta, stmtAny, dtorsAny, anyOptExpr, anyExpr, isImportMetaE, hpe]

theorem finalize_mem (st : WState) (walked : List Stmt) (s : Stmt)
    (hs : s ∈ finalize st walked) :
    s = st.directive.getD useStrictStmt ∨ s = mkPrologue st ∨ s ∈ walked ∨
    s = .returnStmt (some (.objectExpr (finalExports st))) := by
  rw [finalize] at hs
  rcases List.mem_append.mp hs with hs | hs
  · rcases List.mem_cons.mp hs with rfl | hs
    · exact Or.inl rfl
    · split at hs
      · rcases List.mem_cons.mp hs with rfl | hs
        · exact Or.inr (Or.inl rfl)
        · exact Or.inr (Or.inr (Or.inl hs))
      · exact Or.inr (Or.inr (Or.inl hs))
  · rw [List.mem_singleton] at hs
    exact Or.inr (Or.inr (Or.inr hs))

theorem finalize_getLast (st : WState) (walked : List Stmt) :
    (finalize st walked).getLast? =
      some (.returnStmt (some (.objectExpr (finalExports st)))) := by
  rw [finalize]
  exact List.getLast?_concat _

theorem finalize_head (st : WState) (walked : List Stmt) :
    (finalize st walked).head? = some (st.directive.getD useStrictStmt) := by
  rw [finalize, List.cons_append]
  rfl

theorem finalExports_clean (st : WState) {name : Option String} (h : StInv name st)
    (hlen : st.importExpressions.length = 1) :
    ∀ m ∈ finalExports st, entryAnyE isImportsIdx m = false := by
  intro m hm
  rw [finalExports, if_pos (by simp [hlen])] at hm
  obtain ⟨i, hi⟩ := List.mem_iff_getElem?.mp hm
  exact applyPatches_clean st.toPatch st.exports
    ⟨h.targets_sorted, h.targets_shape, h.untargeted_clean⟩ i m hi

theorem finalExports_noMeta (st : WState) {name : Option String} (h : StInv name st) :
    ∀ m ∈ finalExports st, entryAnyE isImportMetaE m = false := by
  rw [finalExports]
  split
  · exact applyPatches_noMeta st.toPatch st.exports h.exports_noMeta
  · exact h.exports_noMeta

theorem dropWhile_head?_not (p : α → Bool) (l : List α) :
    ∀ x, (l.dropWhile p).head? = some x → p x = false := by
  induction l with
  | nil => intro x hx; cases hx
  | cons a rest ih =>
      intro x hx
      cases hp : p a with
      | true =>
          rw [List.dropWhile_cons, if_pos (by rw [hp])] at hx
          exact ih x hx
      | false =>
          rw [List.dropWhile_cons, if_neg (by rw [hp]; exact Bool.false_ne_true)] at hx
          injection hx with hx
          subst hx
          exact hp

theorem trimTrailingNone_spec (l : List (Option Pat)) :
    ∃ dropped, l = trimTrailingNone l ++ dropped ∧ (∀ x ∈ dropped, x = none) ∧
      ∀ x, (trimTrailingNone l).getLast? = some x → x ≠ none := by
  refine ⟨(l.reverse.takeWhile Option.isNone).reverse, ?_, ?_, ?_⟩
  · rw [trimTrailingNone, ← List.reverse_append, List.takeWhile_append_dropWhile,
      List.reverse_reverse]
  · intro x hx
    rw [List.mem_reverse] at hx
    have := List.mem_takeWhile_imp hx
    cases x with
    | none => rfl
    | some pp => simp [Option.isNone] at this
  · intro x hx hxn
    subst hxn
    rw [trimTrailingNone, List.getLast?_reverse] at hx
    have := dropWhile_head?_not Option.isNone l.reverse none hx
    simp [Option.isNone] at this

/-! ## Claim theorems -/

/-- C4: an export or re-export whose exported or local key is `__proto__` is
never emitted as a plain non-computed identifier property: `createProperty`
forces the key into computed string-literal form with shorthand disabled
(first two conjuncts, for an identifier and a string-literal key), and a
re-export specifier whose local name is `__proto__` accesses the import
result through a computed string-literal member access (third conjunct). -/
theorem claim4_proto_key_safe :
    (∀ value : Expr,
      createProperty (.identifier "__proto__") value =
        .prop true false false (.literal (.str "__proto__")) value) ∧
    (∀ value : Expr,
      createProperty (.literal (.str "__proto__")) value =
        .prop true false false (.literal (.str "__proto__")) value) ∧
    (∀ (idx : Int) (ex : IdLit),
      reexpMember idx ⟨.ident "__proto__", ex⟩ =
        .member true false
          (.member true false (.identifier "_imports") (.literal (.num idx)))
          (.literal (.str "__proto__"))) :=
  ⟨fun _ => rfl, fun _ => rfl, fun _ _ => rfl⟩

/-- C5: a bare `export * from "mod"` wraps the import expression in
`.then(({ default: _, ...m }) => m)` — stripping the namespace's `default`
key — and records the result as a `SpreadElement` in the returned object;
`export * as ns from "mod"` records the unwrapped import expression and a
keyed property instead. -/
theorem claim5_export_all_default_strip :
    ∀ (name : Option String) (st : WState) (src : JSValue)
      (attrs : List ImportAttribute),
      (walkStmt name st (.exportAll none src attrs) =
        ({ st with
            exports := st.exports ++
              [.spread (.member true false (.identifier "_imports")
                (.literal (.num (st.importExpressions.length : Int))))],
            toPatch := st.toPatch ++ [.wholeNode st.exports.length],
            importAssignments := st.importAssignments ++ [none],
            importExpressions := st.importExpressions ++
              [.call false
                (.member false false (esmDeclarationToExpression src attrs name)
                  (.identifier "then"))
                [.arrow true
                  [.objectPat
                    [.prop false false (.ident "default") (.identifier "_"),
                     .restP (.identifier "m")]]
                  (.identifier "m")]] }, none)) ∧
      (∀ ex : IdLit, walkStmt name st (.exportAll (some ex) src attrs) =
        ({ st with
            exports := st.exports ++
              [createProperty ex.toExpr
                (.member true false (.identifier "_imports")
                  (.literal (.num (st.importExpressions.length : Int))))],
            toPatch := st.toPatch ++ [.wholeNode st.exports.length],
            importAssignments := st.importAssignments ++ [none],
            importExpressions := st.importExpressions ++
              [esmDeclarationToExpression src attrs name] }, none)) :=
  fun _ _ _ _ => ⟨rfl, fun _ => rfl⟩

/-- C6 (evaluation at the failing input): for
`import x from "m" with { type: "json" }` under import name `customImport`,
the synthesized call's second argument nests the attributes under two `with`
keys — `{ with: { with: { type: "json" } } }` — instead of the single-`with`
options object the specification describes; a declaration without
attributes receives the specifier as the only argument.  The same double
wrapping appears in the options of the native dynamic import expression. -/
theorem claim6_attrs_double_with :
    (esmDeclarationToExpression (.str "m") [⟨.ident "type", .str "json"⟩]
        (some "customImport") =
      .call false (.identifier "customImport")
        [.literal (.str "m"),
         .objectExpr
           [.prop false false false (.identifier "with")
             (.objectExpr
               [.prop false false false (.identifier "with")
                 (.objectExpr
                   [.prop false false false (.identifier "type")
                     (.literal (.str "json"))])])]]) ∧
    (esmDeclarationToExpression (.str "m") [] (some "customImport") =
      .call false (.identifier "customImport") [.literal (.str "m")]) ∧
    (esmDeclarationToExpression (.str "m") [⟨.ident "type", .str "json"⟩] none =
      .importExpr (.literal (.str "m"))
        (some (.objectExpr
          [.prop false false false (.identifier "with")
            (.objectExpr
              [.prop false false false (.identifier "with")
                (.objectExpr
                  [.prop false false false (.identifier "type")
                    (.literal (.str "json"))])])]))) :=
  ⟨rfl, rfl, rfl⟩

/-- C7: exactly when an import identifier name is configured, a dynamic
`import(...)` becomes a call to that identifier with the (walked) source
as first argument and the options, when present, preserved as the second
argument, and `import.meta` becomes a non-computed member access on that
identifier; without a configured name the walk is the identity, leaving
`ImportExpression` and `MetaProperty` nodes unmodified. -/
theorem claim7_custom_import_substitution :
    (∀ (nm : String) (src : Expr) (opts : Option Expr),
      walkExpr (some nm) (.importExpr src opts) =
        .call false (.identifier nm)
          (walkExpr (some nm) src ::
            (match opts with
             | some o => [walkExpr (some nm) o]
             | none => []))) ∧
    (∀ nm m pr : String, walkExpr (some nm) (.metaProperty m pr) =
      .member false false (.identifier nm) (.identifier pr)) ∧
    (∀ e : Expr, walkExpr none e = e) :=
  ⟨fun nm src opts => by cases opts <;> rfl, fun _ _ _ => rfl, walkExpr_none⟩

/-- C9 (counterexample): for `import d, * as ns from "m"` — a declaration
that contains a namespace specifier together with a default specifier — the
recorded binding pattern is the object pattern `{ default: d }`, not the
plain identifier `ns` the claim requires: the namespace specifier does not
terminate specifier processing, and the namespace binding is dropped. -/
theorem claim9_counterexample :
    (walkStmt none initState
        (.importDecl [.defaultS "d", .namespaceS "ns"] (.str "m") [])).1.importAssignments =
      [some (.objectPat [.prop false false (.ident "default") (.identifier "d")])] ∧
    some (Pat.objectPat [.prop false false (.ident "default") (.identifier "d")]) ≠
      some (Pat.identifier "ns") :=
  ⟨rfl, fun h => Pat.noConfusion (Option.some.inj h)⟩

/-- C9 (amended): an `ImportDeclaration` whose namespace specifier is the
only binding-producing specifier binds the plain identifier; but a namespace
specifier does not terminate specifier processing — when a default
specifier also accumulates an object-pattern property, the object pattern
wins and the namespace identifier is dropped. -/
theorem claim9_amended :
    ∀ (name : Option String) (st : WState) (x : String) (src : JSValue)
      (attrs : List ImportAttribute),
      ((walkStmt name st (.importDecl [.namespaceS x] src attrs)).1.importAssignments =
        st.importAssignments ++ [some (.identifier x)]) ∧
      (∀ d : String,
        (walkStmt name st
            (.importDecl [.defaultS d, .namespaceS x] src attrs)).1.importAssignments =
          st.importAssignments ++
            [some (.objectPat
              [.prop false false (.ident "default") (.identifier d)])]) :=
  fun _ _ _ _ _ => ⟨rfl, fun _ => rfl⟩

/-- C10: with an import identifier name configured, every `MetaProperty` is
rewritten to a member access on that identifier regardless of which meta
property it is — in particular `new.target` inside a function body becomes
`<importName>.target` — and no `MetaProperty` (or `ImportExpression`)
survives anywhere in a walked expression. -/
theorem claim10_meta_rewrite_all :
    (∀ nm m pr : String, walkExpr (some nm) (.metaProperty m pr) =
      .member false false (.identifier nm) (.identifier pr)) ∧
    (∀ (nm fid : String) (ps : List Pat) (m pr : String) (st : WState),
      (walkStmt (some nm) st (.funcDecl fid ps [.exprStmt (.metaProperty m pr)])).2 =
        some (.funcDecl fid ps
          [.exprStmt (.member false false (.identifier nm) (.identifier pr))])) ∧
    (∀ (nm : String) (e : Expr),
      anyExpr isImportMetaE (walkExpr (some nm) e) = false) :=
  ⟨fun _ _ _ => rfl, fun _ _ _ _ _ _ => rfl, walkExpr_noMeta⟩

theorem finalize_getElem1 (st : WState) (walked : List Stmt)
    (hops : st.importExpressions.length ≠ 0) :
    (finalize st walked)[1]? = some (mkPrologue st) := by
  simp only [finalize]
  rw [if_pos (by simpa [bne] using hops)]
  rw [List.getElem?_append_left (by simp)]
  simp

/-- C1: for every well-formed module tree, the rewritten program contains no
`ImportDeclaration`, `ExportNamedDeclaration`, `ExportDefaultDeclaration` or
`ExportAllDeclaration` node anywhere; when an import identifier name is
configured it contains no `ImportExpression` or `MetaProperty` node either;
and its last top-level statement is a `ReturnStatement` whose argument is an
`ObjectExpression` built from the collected (and, for a single import,
patched) export entries. -/
theorem claim1_rewrite_complete (p : Program) (name : Option String)
    (hwf : wfStmts p.body) :
    (∀ s ∈ (moduleToFunction p name).body, stmtNoEsm s) ∧
    (∀ nm, name = some nm → ∀ s ∈ (moduleToFunction p name).body, stmtNoMeta s) ∧
    (moduleToFunction p name).body.getLast? =
      some (.returnStmt (some (.objectExpr
        (finalExports (walkStmts name initState p.body).1)))) := by
  have hspec := walkStmts_spec name initState p.body (initState_inv name) hwf
  rcases hW : walkStmts name initState p.body with ⟨stW, walked⟩
  rw [hW] at hspec
  obtain ⟨hinv, _, hout⟩ := hspec
  replace hinv : StInv name stW := hinv
  replace hout : ∀ s' ∈ walked, outOK name s' := hout
  have hbody : (moduleToFunction p name).body = finalize stW walked := by
    rw [moduleToFunction, hW]
  refine ⟨?_, ?_, ?_⟩
  · intro s hs
    rw [hbody] at hs
    rcases finalize_mem stW walked s hs with rfl | rfl | hs | rfl
    · rw [directive_getD stW hinv]
      exact useStrict_noEsm
    · exact mkPrologue_noEsm stW
    · exact (hout s hs).1
    · simp [stmtNoEsm, stmtAny, isEsmStmt, anyOptExpr,
        anyExpr_of_false _ (fun _ => rfl)]
  · intro nm hnm s hs
    rw [hbody] at hs
    rcases finalize_mem stW walked s hs with rfl | rfl | hs | rfl
    · rw [directive_getD stW hinv]
      exact useStrict_noMeta
    · exact mkPrologue_noMeta stW (hinv.ops_noMeta nm hnm)
    · exact (hout s hs).2.2 nm hnm
    · simp only [stmtNoMeta, stmtAny, anyOptExpr, anyExpr, isImportMetaE,
        Bool.false_or]
      exact (anyOMemberList_eq_false _).mpr (finalExports_noMeta stW hinv)
  · rw [hbody]
    exact finalize_getLast stW walked

/-- C8: the rewritten program always begins with a `'use strict'` directive
statement — the captured one (structurally identical) when the source had
one anywhere, a fresh one otherwise — and no other `'use strict'` directive
statement remains anywhere in the rest of the program. -/
theorem claim8_directive_first (p : Program) (name : Option String)
    (hwf : wfStmts p.body) :
    (moduleToFunction p name).body.head? = some useStrictStmt ∧
    ∀ s ∈ (moduleToFunction p name).body.tail, stmtNoUseStrict s := by
  have hspec := walkStmts_spec name initState p.body (initState_inv name) hwf
  rcases hW : walkStmts name initState p.body with ⟨stW, walked⟩
  rw [hW] at hspec
  obtain ⟨hinv, _, hout⟩ := hspec
  replace hinv : StInv name stW := hinv
  replace hout : ∀ s' ∈ walked, outOK name s' := hout
  have hbody : (moduleToFunction p name).body = finalize stW walked := by
    rw [moduleToFunction, hW]
  constructor
  · rw [hbody, finalize_head, directive_getD stW hinv]
  · intro s hs
    rw [hbody] at hs
    simp only [finalize, List.cons_append, List.tail_cons] at hs
    rcases List.mem_append.mp hs with hs | hs
    · have : s = mkPrologue stW ∨ s ∈ walked := by
        split at hs
        · rcases List.mem_cons.mp hs with rfl | hs
          · exact Or.inl rfl
          · exact Or.inr hs
        · exact Or.inr hs
      rcases this with rfl | hs
      · exact mkPrologue_noUseStrict stW
      · exact (hout s hs).2.1
    · rw [List.mem_singleton] at hs
      subst hs
      simp [stmtNoUseStrict, stmtAny, isUseStrictS, anyOptExpr,
        anyExpr_of_false _ (fun _ => rfl)]

/-- C2: when the walk records exactly one import operation, the prologue
awaits that operation directly — its await argument is the single recorded
expression, which contains no `Promise.all` call — and every entry of the
returned object is free of `_imports[n]` array indexing; when more than one
operation is recorded the prologue awaits a `Promise.all` call whose array
holds exactly the recorded import expressions in order, and no recorded
expression contains a `Promise.all` call of its own. -/
theorem claim2_single_import_collapse (p : Program) (name : Option String)
    (hwf : wfStmts p.body) :
    ((walkStmts name initState p.body).1.importExpressions.length = 1 →
      ∃ e, (walkStmts name initState p.body).1.importExpressions = [e] ∧
        (moduleToFunction p name).body[1]? =
          some (mkPrologue (walkStmts name initState p.body).1) ∧
        awaitedImport (mkPrologue (walkStmts name initState p.body).1) = some e ∧
        anyExpr isPACall e = false ∧
        ∀ m ∈ finalExports (walkStmts name initState p.body).1,
          entryAnyE isImportsIdx m = false) ∧
    (1 < (walkStmts name initState p.body).1.importExpressions.length →
      (moduleToFunction p name).body[1]? =
        some (mkPrologue (walkStmts name initState p.body).1) ∧
      awaitedImport (mkPrologue (walkStmts name initState p.body).1) =
        some (.call false
          (.member false false (.identifier "Promise") (.identifier "all"))
          [.arrayExpr ((walkStmts name initState p.body).1.importExpressions.map some)]) ∧
      ∀ e ∈ (walkStmts name initState p.body).1.importExpressions,
        anyExpr isPACall e = false) := by
  have hspec := walkStmts_spec name initState p.body (initState_inv name) hwf
  rcases hW : walkStmts name initState p.body with ⟨stW, walked⟩
  rw [hW] at hspec
  obtain ⟨hinv, _, _⟩ := hspec
  replace hinv : StInv name stW := hinv
  have hbody : (moduleToFunction p name).body = finalize stW walked := by
    rw [moduleToFunction, hW]
  constructor
  · intro hlen
    replace hlen : stW.importExpressions.length = 1 := hlen
    obtain ⟨e, he⟩ := List.length_eq_one.mp hlen
    refine ⟨e, he, ?_, ?_, ?_, ?_⟩
    · rw [hbody]
      exact finalize_getElem1 stW walked (by omega)
    · rw [mkPrologue_await]
      rw [prologueImportExpression, if_pos (by simp [hlen])]
      rw [he]
      rfl
    · exact hinv.ops_noPA e (by rw [he]; exact List.mem_singleton.mpr rfl)
    · exact finalExports_clean stW hinv hlen
  · intro hlen
    replace hlen : 1 < stW.importExpressions.length := hlen
    refine ⟨?_, ?_, ?_⟩
    · rw [hbody]
      exact finalize_getElem1 stW walked (by omega)
    · rw [mkPrologue_await]
      rw [prologueImportExpression, if_neg (by simp; omega)]
      rfl
    · exact hinv.ops_noPA

/-- C3: an `export ... from` statement appends exactly one import operation
at position `importExpressions.length` and appends export entries that each
access `_imports[importExpressions.length]` — the appended operation's
0-based position; later walking only appends to `importExpressions`
(position stability is the suffix conjunct of `walkStmts_spec`); and when
several operations were recorded, the array binding pattern is the
assignment-slot list with exactly its trailing `null` slots removed, every
earlier slot keeping its original position. -/
theorem claim3_order_and_trim (name : Option String) (st : WState)
    (specs : List ExpSpec) (srcv : JSValue) (attrs : List ImportAttribute) :
    ((walkStmt name st
        (.exportNamed none specs (some srcv) attrs)).1.importExpressions =
      st.importExpressions ++ [esmDeclarationToExpression srcv attrs name]) ∧
    ((walkStmt name st (.exportNamed none specs (some srcv) attrs)).1.exports =
      st.exports ++ specs.map (reexpEntry (st.importExpressions.length : Int))) ∧
    (∀ sp, reexpEntry ((st.importExpressions.length : Int)) sp =
      createProperty sp.exported.toExpr
        (.member (reexpLocal sp).isLit false
          (.member true false (.identifier "_imports")
            (.literal (.num (st.importExpressions.length : Int))))
          (reexpLocal sp).toExpr)) ∧
    (st.importExpressions.length ≠ 1 →
      prologueImportAssignment st =
        some (.arrayPat (trimTrailingNone st.importAssignments))) ∧
    (∃ dropped,
      st.importAssignments = trimTrailingNone st.importAssignments ++ dropped ∧
      (∀ x ∈ dropped, x = none) ∧
      ∀ x, (trimTrailingNone st.importAssignments).getLast? = some x →
        x ≠ none) := by
  have hloop := reexportLoop_eq ((st.importExpressions.length : Int)) specs st
  refine ⟨?_, ?_, fun sp => rfl, ?_, trimTrailingNone_spec st.importAssignments⟩
  · simp only [walkStmt, hloop]
  · simp only [walkStmt, hloop]
  · intro hlen
    rw [prologueImportAssignment, if_neg (by simp [hlen])]

/-! ## Witnesses -/

theorem claim1_witness :
    wfStmts [.importDecl [.namedS (.ident "useState") "useState"] (.str "react") [],
      .exprStmt (.metaProperty "import" "meta")] ∧
    (∀ s ∈ (moduleToFunction
        ⟨[.importDecl [.namedS (.ident "useState") "useState"] (.str "react") [],
          .exprStmt (.metaProperty "import" "meta")]⟩
        (some "customImport")).body, stmtNoEsm s) ∧
    (∀ s ∈ (moduleToFunction
        ⟨[.importDecl [.namedS (.ident "useState") "useState"] (.str "react") [],
          .exprStmt (.metaProperty "import" "meta")]⟩
        (some "customImport")).body, stmtNoMeta s) :=
  have h := claim1_rewrite_complete
    ⟨[.importDecl [.namedS (.ident "useState") "useState"] (.str "react") [],
      .exprStmt (.metaProperty "import" "meta")]⟩
    (some "customImport") (by rfl)
  ⟨by rfl, h.1, h.2.1 "customImport" rfl⟩

theorem claim2_witness :
    (wfStmts [.exportAll none (.str "a") []] ∧
      (walkStmts none initState
        [.exportAll none (.str "a") []]).1.importExpressions.length = 1 ∧
      ∃ e, (walkStmts none initState
          [.exportAll none (.str "a") []]).1.importExpressions = [e] ∧
        (moduleToFunction ⟨[.exportAll none (.str "a") []]⟩ none).body[1]? =
          some (mkPrologue (walkStmts none initState
            [.exportAll none (.str "a") []]).1) ∧
        awaitedImport (mkPrologue (walkStmts none initState
          [.exportAll none (.str "a") []]).1) = some e ∧
        anyExpr isPACall e = false ∧
        ∀ m ∈ finalExports (walkStmts none initState
            [.exportAll none (.str "a") []]).1,
          entryAnyE isImportsIdx m = false) ∧
    (wfStmts [.importDecl [] (.str "a") [], .importDecl [] (.str "b") []] ∧
      1 < (walkStmts none initState
        [.importDecl [] (.str "a") [], .importDecl [] (.str "b") []]).1.importExpressions.length ∧
      awaitedImport (mkPrologue (walkStmts none initState
          [.importDecl [] (.str "a") [], .importDecl [] (.str "b") []]).1) =
        some (.call false
          (.member false false (.identifier "Promise") (.identifier "all"))
          [.arrayExpr ((walkStmts none initState
            [.importDecl [] (.str "a") [], .importDecl [] (.str "b") []]).1.importExpressions.map some)])) :=
  have h1 := claim2_single_import_collapse ⟨[.exportAll none (.str "a") []]⟩ none (by rfl)
  have h2 := claim2_single_import_collapse
    ⟨[.importDecl [] (.str "a") [], .importDecl [] (.str "b") []]⟩ none (by rfl)
  ⟨⟨by rfl, by rfl, h1.1 (by rfl)⟩, ⟨by rfl, by decide, (h2.2 (by decide)).2.1⟩⟩

theorem claim3_witness :
    ((⟨none, [some (.identifier "x"), none],
        [.literal (.str "p"), .literal (.str "q")], [], []⟩ : WState).importExpressions.length ≠ 1) ∧
    prologueImportAssignment
      ⟨none, [some (.identifier "x"), none],
        [.literal (.str "p"), .literal (.str "q")], [], []⟩ =
      some (.arrayPat (trimTrailingNone [some (.identifier "x"), none])) ∧
    (walkStmt none
      ⟨none, [some (.identifier "x"), none],
        [.literal (.str "p"), .literal (.str "q")], [], []⟩
      (.exportNamed none [⟨.ident "a", .ident "b"⟩] (some (.str "m")) [])).1.importExpressions =
      [.literal (.str "p"), .literal (.str "q")] ++
        [esmDeclarationToExpression (.str "m") [] none] :=
  ⟨by decide,
   (claim3_order_and_trim none
     ⟨none, [some (.identifier "x"), none],
       [.literal (.str "p"), .literal (.str "q")], [], []⟩
     [⟨.ident "a", .ident "b"⟩] (.str "m") []).2.2.2.1 (by decide),
   (claim3_order_and_trim none
     ⟨none, [some (.identifier "x"), none],
       [.literal (.str "p"), .literal (.str "q")], [], []⟩
     [⟨.ident "a", .ident "b"⟩] (.str "m") []).1⟩

theorem claim8_witness :
    wfStmts [.funcDecl "f" [] [.exprStmt (.literal (.str "use strict"))]] ∧
    (moduleToFunction
      ⟨[.funcDecl "f" [] [.exprStmt (.literal (.str "use strict"))]]⟩ none).body.head? = some useStrictStmt ∧
    ∀ s ∈ (moduleToFunction
        ⟨[.funcDecl "f" [] [.exprStmt (.literal (.str "use strict"))]]⟩ none).body.tail, stmtNoUseStrict s :=
  have h := claim8_directive_first
    ⟨[.funcDecl "f" [] [.exprStmt (.literal (.str "use strict"))]]⟩ none (by rfl)
  ⟨by rfl, h.1, h.2⟩

end EstreeModuleToFunction
